import Mathlib

/-!
Verification of the knowledge-graph memory server (`src/unnamed/part_003`).

The TypeScript `KnowledgeGraphManager` is shallowly embedded here:

* JavaScript `Map`s and `Set`s are modelled as insertion-ordered association
  lists (`jmSet` updates an existing key in place and appends a new one;
  `jsAdd` appends to a set only when absent), matching JS iteration order.
* The JSONL store file is modelled as a `List Rec`, one `Rec` per line;
  `JSON.stringify`/`JSON.parse` of a record is modelled as the identity on
  the structured record, while the JS truthiness test
  `e.created_at && { created_at: ... }` (which drops the field when the
  timestamp is `0` or `undefined`) is modelled explicitly by `jsTruthyTs`.
* In-place mutation of the entity objects shared between `graph.entities`
  and `entityIndex` is modelled by updating the last list entry with the
  given name (`Map.set` makes the index point at the last duplicate).
* Floating point scores and path costs are modelled over `ℝ` with
  `Real.log` / `Real.exp`; the unbounded `while` loop of Dijkstra and the
  parent-chain reconstruction loop (which the source can in fact fail to
  exit) are modelled with explicit fuel, fuel exhaustion mapping to "no
  result".
-/

set_option maxHeartbeats 1000000

namespace MemServer

/-- Entity record, fields as in the `Entity` interface of the source. -/
structure Entity where
  name : String
  entityType : String
  observations : List String
  created_at : Option Nat
  updated_at : Option Nat
  deriving DecidableEq, Repr

/-- Relation record, `from`/`to`/`relationType` as in the source. -/
structure Relation where
  «from» : String
  «to» : String
  relationType : String
  deriving DecidableEq, Repr

/-- The in-memory knowledge graph: entity list plus relation list. -/
structure KnowledgeGraph where
  entities : List Entity
  relations : List Relation
  deriving DecidableEq, Repr

/-- One line of the persisted JSONL file: either an entity record or a
relation record (the `type` discriminator of the source is the constructor). -/
inductive Rec where
  | entity (name entityType : String) (observations : List String)
      (created_at updated_at : Option Nat)
  | relation («from» «to» relationType : String)
  deriving DecidableEq, Repr

/-- JS `Map.get`: first (and only) binding of the key. -/
def jmGet (m : List (String × α)) (k : String) : Option α :=
  match m with
  | [] => none
  | (k', v) :: rest => if k' = k then some v else jmGet rest k

/-- JS `Map.set`: replace the binding in place if the key exists, else append.
This preserves JS `Map` insertion-order iteration semantics. -/
def jmSet (m : List (String × α)) (k : String) (v : α) : List (String × α) :=
  match m with
  | [] => [(k, v)]
  | (k', v') :: rest => if k' = k then (k', v) :: rest else (k', v') :: jmSet rest k v

/-- JS `Set.add` on an insertion-ordered string set: append when absent. -/
def jsAdd (s : List String) (k : String) : List String :=
  if s.contains k then s else s ++ [k]

/-- JS truthiness of an optional millisecond timestamp: `0` and `undefined`
are falsy.  `e.created_at && { created_at: e.created_at }` therefore omits
the field exactly when the timestamp is absent or zero. -/
def jsTruthyTs (o : Option Nat) : Option Nat :=
  match o with
  | none => none
  | some n => if n = 0 then none else some n

/-- One line of the `loadGraph` reduce: push the record on the matching
list of the accumulated graph. -/
def loadStep (g : KnowledgeGraph) (r : Rec) : KnowledgeGraph :=
  match r with
  | Rec.entity n t o c u => ⟨g.entities ++ [⟨n, t, o, c, u⟩], g.relations⟩
  | Rec.relation f t rt => ⟨g.entities, g.relations ++ [⟨f, t, rt⟩]⟩

/-- `loadGraph`: fold over the lines of the store file, appending entity
records to `entities` and relation records to `relations` in line order. -/
def loadGraph (recs : List Rec) : KnowledgeGraph :=
  recs.foldl loadStep ⟨[], []⟩

/-- `saveGraph` serialisation: entity lines (insertion order) then relation
lines (insertion order); falsy (`0`/absent) timestamps are omitted. -/
def saveGraph (g : KnowledgeGraph) : List Rec :=
  g.entities.map
    (fun e => Rec.entity e.name e.entityType e.observations
      (jsTruthyTs e.created_at) (jsTruthyTs e.updated_at))
  ++ g.relations.map (fun r => Rec.relation r.«from» r.«to» r.relationType)

/-- `this.entityIndex.get n`: the index is built with `Map.set e.name e` over
the entity list, so a duplicated name resolves to its last record. -/
def lookupLast (ents : List Entity) (n : String) : Option Entity :=
  match ents with
  | [] => none
  | e :: rest =>
    if rest.any (fun e' => e'.name = n) then lookupLast rest n
    else if e.name = n then some e else lookupLast rest n

/-- In-place mutation of the entity object returned by `entityIndex.get n`:
updates the last entity with that name (the one the index points at). -/
def updateLastNamed (n : String) (f : Entity → Entity) (ents : List Entity) : List Entity :=
  match ents with
  | [] => []
  | e :: rest =>
    if rest.any (fun e' => e'.name = n) then e :: updateLastNamed n f rest
    else if e.name = n then f e :: rest else e :: updateLastNamed n f rest

/-- `createEntities`: skip proposed entities whose name already exists
(the existence set is computed once, from the pre-state), stamp the rest
with `created_at = updated_at = now`, append them, and return them. -/
def createEntities (es : List Entity) (g : KnowledgeGraph) (now : Nat) :
    KnowledgeGraph × List Entity :=
  let newEntities :=
    (es.filter (fun e => ¬ (g.entities.map Entity.name).contains e.name)).map
      (fun e => { e with created_at := some now, updated_at := some now })
  (⟨g.entities ++ newEntities, g.relations⟩, newEntities)

/-- `deleteEntities`: drop listed entities and every relation touching a
listed name. -/
def deleteEntities (names : List String) (g : KnowledgeGraph) : KnowledgeGraph :=
  ⟨g.entities.filter (fun e => ¬ names.contains e.name),
   g.relations.filter (fun r => ¬ names.contains r.«from» ∧ ¬ names.contains r.«to»)⟩

/-- Argument of one `add_observations` target. -/
structure ObsInput where
  entityName : String
  contents : List String
  deriving DecidableEq, Repr

/-- Per-target result of `add_observations`. -/
structure ObsResult where
  entityName : String
  addedObservations : List String
  deriving DecidableEq, Repr

/-- The `observations.map` body of `addObservations`, sequentialised: each
target is looked up in the (already partially mutated) entity list; a missing
target throws, which aborts the map but keeps the in-place mutations already
performed; an existing target gets the contents not present in its current
observation snapshot appended (and `updated_at := now` when non-empty).
`addObsEnts` is the in-place entity mutation of one existing target. -/
def obsAppendFn (newObs : List String) (now : Nat) : Entity → Entity :=
  fun e' => { e' with observations := e'.observations ++ newObs, updated_at := some now }

def addObsEnts (o : ObsInput) (e0 : Entity) (ents : List Entity) (now : Nat) : List Entity :=
  if (o.contents.filter (fun c => ¬ e0.observations.contains c)).isEmpty then ents
  else updateLastNamed o.entityName
    (obsAppendFn (o.contents.filter (fun c => ¬ e0.observations.contains c)) now) ents

def addObsCore (inputs : List ObsInput) (ents : List Entity) (now : Nat) :
    List Entity × Except String (List ObsResult) :=
  match inputs with
  | [] => (ents, Except.ok [])
  | o :: os =>
    match lookupLast ents o.entityName with
    | none => (ents, Except.error ("Entity " ++ o.entityName ++ " not found"))
    | some e =>
      let rest := addObsCore os (addObsEnts o e ents now) now
      (rest.1,
        match rest.2 with
        | Except.ok res =>
          Except.ok (⟨o.entityName, o.contents.filter (fun c => ¬ e.observations.contains c)⟩ :: res)
        | Except.error m => Except.error m)

/-- The full `addObservations` operation against the store: load the file,
run the map body, and save only on success.  Returns the resulting file,
the in-memory graph the indexes point at afterwards, and the outcome. -/
def addObservationsRun (inputs : List ObsInput) (file : List Rec) (now : Nat) :
    List Rec × KnowledgeGraph × Except String (List ObsResult) :=
  let g := loadGraph file
  let step := addObsCore inputs g.entities now
  let g' : KnowledgeGraph := ⟨step.1, g.relations⟩
  match step.2 with
  | Except.ok res => (saveGraph g', g', Except.ok res)
  | Except.error m => (file, g', Except.error m)

/-- `openNodes`: entity records looked up per listed name (missing names
filtered out), plus every relation with either endpoint among the names. -/
def openNodes (names : List String) (g : KnowledgeGraph) : KnowledgeGraph :=
  ⟨(names.map (fun n => lookupLast g.entities n)).reduceOption,
   g.relations.filter (fun r => names.contains r.«from» ∨ names.contains r.«to»)⟩

/-- JS `\w` without the unicode flag: `[A-Za-z0-9_]`. -/
def jsWordChar (c : Char) : Bool :=
  (97 ≤ c.toNat && c.toNat ≤ 122) || (65 ≤ c.toNat && c.toNat ≤ 90) ||
  (48 ≤ c.toNat && c.toNat ≤ 57) || c == '_'

/-- JS `\s` restricted to its ASCII members (the inputs considered here are
ASCII): space, tab, line feed, vertical tab, form feed, carriage return. -/
def jsSpaceChar (c : Char) : Bool :=
  c == ' ' || c == '\t' || c == '\n' || c == '\r' || c.toNat == 11 || c.toNat == 12

/-- ASCII `toLowerCase` on a character. -/
def jsCharLower (c : Char) : Char :=
  if 65 ≤ c.toNat ∧ c.toNat ≤ 90 then Char.ofNat (c.toNat + 32) else c

/-- `String.prototype.toLowerCase` (ASCII). -/
def jsToLower (s : String) : String :=
  (s.toList.map jsCharLower).asString

/-- Maximal runs of non-whitespace characters.  `split(/\s+/)` can also
produce empty fragments at the ends, but those never survive the
`length > 2` filter of `tokenize`, so they are not materialised. -/
def splitRuns (l : List Char) : List (List Char) :=
  match l with
  | [] => []
  | c :: cs =>
    let rest := splitRuns cs
    if jsSpaceChar c then rest
    else
      match cs with
      | [] => [[c]]
      | d :: _ =>
        if jsSpaceChar d then [c] :: rest
        else
          match rest with
          | [] => [[c]]
          | r :: rs => (c :: r) :: rs

/-- `tokenize`: lowercase, replace every character that is not a word
character, whitespace or a hyphen by a space, split on whitespace, keep
tokens longer than two characters. -/
def tokenize (text : String) : List String :=
  let cleaned := (jsToLower text).toList.map
    (fun c => if jsWordChar c || jsSpaceChar c || c == '-' then c else ' ')
  ((splitRuns cleaned).filter (fun t => 2 < t.length)).map List.asString

/-- Non-overlapping left-to-right occurrence count, the behaviour of
`(text.match(new RegExp(tok, 'g')) || []).length` for the patterns produced
by `tokenize` (word characters and hyphens only, never empty).  The fuel is
the length of the scanned text, which suffices for non-empty patterns. -/
def countOccsAux (pat : List Char) : Nat → List Char → Nat
  | 0, _ => 0
  | _, [] => 0
  | fuel + 1, c :: rest =>
    if pat.isPrefixOf (c :: rest) then 1 + countOccsAux pat fuel ((c :: rest).drop pat.length)
    else countOccsAux pat fuel rest

/-- Occurrences of `pat` in `text`, both as strings. -/
def countOccs (pat text : String) : Nat :=
  countOccsAux pat.toList text.toList.length text.toList

/-- The text indexed and scored for an entity:
`[e.name, e.entityType, ...e.observations].join(' ')`. -/
def entityText (e : Entity) : String :=
  String.intercalate " " (e.name :: e.entityType :: e.observations)

/-- `rebuildIndexes`, name half: `entityIndex.set(e.name, e)` per entity. -/
def buildEntityIndex (ents : List Entity) : List (String × Entity) :=
  ents.foldl (fun m e => jmSet m e.name e) []

/-- `rebuildIndexes`, inverted half: for each entity, add its name to the
set of every token of its text. -/
def buildInvertedIndex (ents : List Entity) : List (String × List String) :=
  ents.foldl
    (fun m e =>
      (tokenize (entityText e)).foldl
        (fun m' t => jmSet m' t (jsAdd ((jmGet m' t).getD []) e.name)) m)
    []

/-- Degree map: each relation contributes one to each of its endpoints. -/
def buildDegree (rels : List Relation) : List (String × Nat) :=
  rels.foldl
    (fun m r =>
      let m1 := jmSet m r.«from» ((jmGet m r.«from»).getD 0 + 1)
      jmSet m1 r.«to» ((jmGet m1 r.«to»).getD 0 + 1))
    []

/-- Bidirectional adjacency list built from the relations. -/
def buildAdj (rels : List Relation) : List (String × List String) :=
  rels.foldl
    (fun m r =>
      let m1 := jmSet m r.«from» (jsAdd ((jmGet m r.«from»).getD []) r.«to»)
      jmSet m1 r.«to» (jsAdd ((jmGet m1 r.«to»).getD []) r.«from»))
    []

/-- `SEARCH_TOP_PER_TOKEN` default. -/
def SEARCH_TOP_PER_TOKEN : Nat := 1

/-- `SEARCH_MIN_RELATIVE_SCORE` default (the double closest to 0.3 differs
from 3/10 by an amount irrelevant to every statement proved here). -/
noncomputable def SEARCH_MIN_RELATIVE_SCORE : ℝ := 3 / 10

/-- `SEARCH_MAX_PATH_LENGTH` default. -/
def SEARCH_MAX_PATH_LENGTH : Nat := 5

/-- `SEARCH_MAX_TOTAL_NODES` default. -/
def SEARCH_MAX_TOTAL_NODES : Nat := 50

/-- `THIRTY_DAYS` in milliseconds. -/
noncomputable def THIRTY_DAYS : ℝ := 30 * 24 * 60 * 60 * 1000

/-- `x || Infinity` applied to an optional stored distance: a missing or
zero (falsy!) distance is treated as infinite, modelled as `none`. -/
noncomputable def jsTruthyDist (o : Option ℝ) : Option ℝ :=
  match o with
  | none => none
  | some x => if x = 0 then none else some x

/-- `x < y` where `y` is a possibly-infinite (`none`) distance. -/
def ltInf (x : ℝ) (o : Option ℝ) : Prop :=
  match o with
  | none => True
  | some y => x < y

/-- `x > y` where `y` is a possibly-infinite (`none`) distance. -/
def gtInf (x : ℝ) (o : Option ℝ) : Prop :=
  match o with
  | none => False
  | some y => y < x

noncomputable instance (x : ℝ) (o : Option ℝ) : Decidable (ltInf x o) :=
  match o with
  | none => isTrue trivial
  | some y => inferInstanceAs (Decidable (x < y))

noncomputable instance (x : ℝ) (o : Option ℝ) : Decidable (gtInf x o) :=
  match o with
  | none => isFalse (fun h => h)
  | some y => inferInstanceAs (Decidable (y < x))

/-- One relaxation `nb => ...` of the Dijkstra inner `forEach`: edge cost
`1 + log(1 + degree(nb))`; the improvement test compares against
`dist.get(nb) || Infinity` (so a stored distance of `0` — the source! —
counts as infinite and is always "improved"). -/
noncomputable def relaxStep (degree : List (String × Nat)) (currDist : ℝ) (curr : String)
    (st : List (ℝ × String) × List (String × ℝ) × List (String × String)) (nb : String) :
    List (ℝ × String) × List (String × ℝ) × List (String × String) :=
  let edgeCost : ℝ := 1 + Real.log (1 + ((jmGet degree nb).getD 0 : Nat))
  let newDist := currDist + edgeCost
  if ltInf newDist (jsTruthyDist (jmGet st.2.1 nb)) then
    (st.1 ++ [(newDist, nb)], jmSet st.2.1 nb newDist, jmSet st.2.2 nb curr)
  else st

/-- Stable insertion (ascending by distance) of a pending queue entry before
all already-queued entries of strictly larger key, matching the stable
`pq.sort((a, b) => a[0] - b[0])` of the source. -/
noncomputable def pqInsert (x : ℝ × String) : List (ℝ × String) → List (ℝ × String)
  | [] => [x]
  | y :: ys => if y.1 < x.1 then y :: pqInsert x ys else x :: y :: ys

/-- Stable ascending sort of the pending queue. -/
noncomputable def sortPQ : List (ℝ × String) → List (ℝ × String)
  | [] => []
  | x :: xs => pqInsert x (sortPQ xs)

/-- The `for (let n = to; n; n = parent.get(n)!) path.unshift(n)` loop.
The chain stops at a node without parent or at the falsy name `""`; a cyclic
parent chain never stops in the source (the fuel models that divergence as
`none`). -/
def reconstruct (parent : List (String × String)) : Nat → String → Option (List String)
  | 0, _ => none
  | fuel + 1, n =>
    if n = "" then some []
    else
      match jmGet parent n with
      | none => some [n]
      | some p => (reconstruct parent fuel p).map (fun rest => rest ++ [n])

/-- The `while (pq.length > 0)` loop of `findShortestPath`: sort, shift,
return through reconstruction when the target is popped (hop-cap checked),
skip stale entries, otherwise relax all neighbours.  Fuel exhaustion models
non-termination of the source loop as `none`. -/
noncomputable def dijkstraLoop (adj : List (String × List String))
    (degree : List (String × Nat)) («to» : String) (maxLen : Nat) :
    Nat → List (ℝ × String) → List (String × ℝ) → List (String × String) →
    Option (List String)
  | 0, _, _, _ => none
  | fuel + 1, pq, dist, parent =>
    match sortPQ pq with
    | [] => none
    | (currDist, curr) :: rest =>
      if curr = «to» then
        match reconstruct parent (parent.length + 2) «to» with
        | none => none
        | some path => if path.length - 1 ≤ maxLen then some path else none
      else if gtInf currDist (jsTruthyDist (jmGet dist curr)) then
        dijkstraLoop adj degree «to» maxLen fuel rest dist parent
      else
        let st := ((jmGet adj curr).getD []).foldl (relaxStep degree currDist curr)
          (rest, dist, parent)
        dijkstraLoop adj degree «to» maxLen fuel st.1 st.2.1 st.2.2

/-- `findShortestPath`: the `from === to` shortcut, then weighted Dijkstra
from `from` with `dist = {from: 0}`, empty parent map and `pq = [[0, from]]`. -/
noncomputable def findShortestPath (fuel : Nat) («from» «to» : String)
    (g : KnowledgeGraph) (maxLen : Nat) : Option (List String) :=
  if «from» = «to» then some [«from»]
  else
    dijkstraLoop (buildAdj g.relations) (buildDegree g.relations) «to» maxLen fuel
      [(0, «from»)] [(«from», 0)] []

/-- The ordered pairs `(arr[i], arr[j])`, `i < j`, of the double loop of
`findSteinerTree`. -/
def pairsOf : List String → List (String × String)
  | [] => []
  | x :: xs => xs.map (fun y => (x, y)) ++ pairsOf xs

/-- The pair loop of `findSteinerTree`: add every node of each found
pairwise path to the connected set. -/
noncomputable def steinerLoop (fuel : Nat) (g : KnowledgeGraph) (maxLen : Nat) :
    List (String × String) → List String → List String
  | [], conn => conn
  | (a, b) :: ps, conn =>
    let conn' :=
      match findShortestPath fuel a b g maxLen with
      | none => conn
      | some path => path.foldl jsAdd conn
    steinerLoop fuel g maxLen ps conn'

/-- `findSteinerTree`: entries alone when at most one, otherwise the entry
set extended by all pairwise shortest-path nodes. -/
noncomputable def findSteinerTree (fuel : Nat) (entries : List String)
    (g : KnowledgeGraph) (maxLen : Nat) : List String :=
  if entries.length ≤ 1 then entries
  else steinerLoop fuel g maxLen (pairsOf entries) entries

/-- `score = tf * importance * recency` for one candidate entity and token. -/
noncomputable def scoreEntity (degree : List (String × Nat)) (now : Nat)
    (tok : String) (e : Entity) : ℝ :=
  let text := jsToLower (entityText e)
  let tf : ℝ := 1 + Real.log (1 + (countOccs tok text : ℝ))
  let importance : ℝ := Real.log ((e.observations.length : ℝ) + 1) *
    (1 + Real.log (1 + ((jmGet degree e.name).getD 0 : Nat)))
  let recency : ℝ :=
    match e.updated_at with
    | none => 1
    | some u => if u = 0 then 1 else Real.exp (-(((now : ℝ) - (u : ℝ)) / THIRTY_DAYS))
  tf * importance * recency

/-- Stable insertion for the descending score sort
`scores.sort((a, b) => b[1] - a[1])`. -/
noncomputable def scoreInsert (x : String × ℝ) : List (String × ℝ) → List (String × ℝ)
  | [] => [x]
  | y :: ys => if x.2 < y.2 then y :: scoreInsert x ys else x :: y :: ys

/-- Stable descending sort of scored candidates. -/
noncomputable def sortScoresDesc : List (String × ℝ) → List (String × ℝ)
  | [] => []
  | x :: xs => scoreInsert x (sortScoresDesc xs)

/-- Candidate list stored in `tokenCands` for one token: score the entities
of the token's inverted-index set, sort descending, and keep those scoring
at least `top * SEARCH_MIN_RELATIVE_SCORE`; `none` when the token has no
matches or no scores. -/
noncomputable def tokenCandsFor (invertedIndex : List (String × List String))
    (entityIndex : List (String × Entity)) (degree : List (String × Nat))
    (now : Nat) (tok : String) : Option (List (String × ℝ)) :=
  match jmGet invertedIndex tok with
  | none => none
  | some names =>
    let scores := names.foldl
      (fun acc nm =>
        match jmGet entityIndex nm with
        | none => acc
        | some e => acc ++ [(nm, scoreEntity degree now tok e)])
      []
    match sortScoresDesc scores with
    | [] => none
    | top :: restSorted =>
      some ((top :: restSorted).filter
        (fun p => top.2 * SEARCH_MIN_RELATIVE_SCORE ≤ p.2))

/-- The per-token selection walk: take up to `SEARCH_TOP_PER_TOKEN`
candidates not already chosen by an earlier token. -/
def selectLoop : List (String × ℝ) → List String → Nat → List String
  | [], entries, _ => entries
  | (nm, _) :: cs, entries, count =>
    if SEARCH_TOP_PER_TOKEN ≤ count then entries
    else if entries.contains nm then selectLoop cs entries count
    else selectLoop cs (entries ++ [nm]) (count + 1)

/-- JS `slice(0, k)` for a possibly negative `k` (a negative end counts from
the end of the array). -/
def jsSlice0 (l : List α) (k : Int) : List α :=
  if 0 ≤ k then l.take k.toNat else l.take (l.length - k.natAbs)

/-- `searchNodes`: tokenize the query, build candidates per token, select
entries, connect them through the Steiner approximation, cap the node count
(entries first), and return the looked-up entities together with the
relations both of whose endpoints are among the final names. -/
noncomputable def searchNodes (fuel : Nat) (g : KnowledgeGraph) (query : String)
    (now : Nat) : KnowledgeGraph :=
  let queryTokens := tokenize query
  if queryTokens.isEmpty then ⟨[], []⟩
  else
    let entityIndex := buildEntityIndex g.entities
    let invertedIndex := buildInvertedIndex g.entities
    let degree := buildDegree g.relations
    let tokenCands := queryTokens.foldl
      (fun tc tok =>
        match tokenCandsFor invertedIndex entityIndex degree now tok with
        | none => tc
        | some cands => jmSet tc tok cands)
      []
    let entries := queryTokens.foldl
      (fun entries tok =>
        match jmGet tokenCands tok with
        | none => entries
        | some cands => selectLoop cands entries 0)
      []
    if entries.isEmpty then ⟨[], []⟩
    else
      let connected := findSteinerTree fuel entries g SEARCH_MAX_PATH_LENGTH
      let finalNames :=
        if connected.length ≤ SEARCH_MAX_TOTAL_NODES then connected
        else entries ++ jsSlice0 (connected.filter (fun n => ¬ entries.contains n))
          ((SEARCH_MAX_TOTAL_NODES : Int) - (entries.length : Int))
      ⟨(finalNames.map (fun n => jmGet entityIndex n)).reduceOption,
       g.relations.filter
         (fun r => finalNames.contains r.«from» ∧ finalNames.contains r.«to»)⟩

/-- The result-closure property claimed for `search_nodes`: every returned
relation has both endpoints among the names of the returned entities. -/
def resultClosed (g : KnowledgeGraph) : Prop :=
  ∀ r ∈ g.relations,
    r.«from» ∈ g.entities.map Entity.name ∧ r.«to» ∈ g.entities.map Entity.name

/-- All relation endpoints of a graph (with multiplicity, `from`s first). -/
def relNames (g : KnowledgeGraph) : List String :=
  g.relations.map Relation.«from» ++ g.relations.map Relation.«to»

/-- Concrete store used to exercise `search_nodes`: the entity named `""`
(matched through its type token `alpha`), the entity `tgt` (token `beta`),
and a chain of relations through `ghost`, a name with no entity record. -/
def cexGraph : KnowledgeGraph :=
  ⟨[⟨"", "alpha", [], none, none⟩, ⟨"tgt", "beta", [], none, none⟩],
   [⟨"", "ghost", "r"⟩, ⟨"ghost", "tgt", "r"⟩]⟩

/-- The adjacency list of `cexGraph`. -/
def cexA : List (String × List String) :=
  [("", ["ghost"]), ("ghost", ["", "tgt"]), ("tgt", ["ghost"])]

/-- The degree map of `cexGraph`. -/
def cexD : List (String × Nat) := [("", 1), ("ghost", 2), ("tgt", 1)]

/-! ### Helper lemmas -/

theorem contains_iff {α : Type} [BEq α] [LawfulBEq α] {l : List α} {a : α} :
    l.contains a = true ↔ a ∈ l := by
  simp [List.contains, List.elem_iff]

theorem jsTruthyTs_eq {o : Option Nat} (h : o ≠ some 0) : jsTruthyTs o = o := by
  match o with
  | none => rfl
  | some n =>
    simp only [jsTruthyTs]
    rw [if_neg]
    intro h0
    exact h (by rw [h0])

theorem loadGraph_acc (recs : List Rec) (g0 : KnowledgeGraph) :
    recs.foldl loadStep g0 =
      ⟨g0.entities ++ (loadGraph recs).entities, g0.relations ++ (loadGraph recs).relations⟩ := by
  induction recs generalizing g0 with
  | nil => simp [loadGraph]
  | cons r rs ih =>
    have hstep : ∀ g1 : KnowledgeGraph, (r :: rs).foldl loadStep g1 = rs.foldl loadStep (loadStep g1 r) :=
      fun _ => rfl
    rw [hstep, ih (loadStep g0 r)]
    have : loadGraph (r :: rs) = rs.foldl loadStep (loadStep ⟨[], []⟩ r) := rfl
    rw [this, ih (loadStep ⟨[], []⟩ r)]
    cases r <;> simp [loadStep]

theorem loadGraph_append (a b : List Rec) :
    loadGraph (a ++ b) =
      ⟨(loadGraph a).entities ++ (loadGraph b).entities,
       (loadGraph a).relations ++ (loadGraph b).relations⟩ := by
  show (a ++ b).foldl loadStep ⟨[], []⟩ = _
  rw [List.foldl_append]
  exact loadGraph_acc b (loadGraph a)

theorem loadGraph_entityRecs (es : List Entity)
    (h : ∀ e ∈ es, e.created_at ≠ some 0 ∧ e.updated_at ≠ some 0) :
    loadGraph (es.map (fun e => Rec.entity e.name e.entityType e.observations
      (jsTruthyTs e.created_at) (jsTruthyTs e.updated_at))) = ⟨es, []⟩ := by
  induction es with
  | nil => rfl
  | cons e es ih =>
    rw [List.map_cons]
    show loadGraph ([Rec.entity e.name e.entityType e.observations
      (jsTruthyTs e.created_at) (jsTruthyTs e.updated_at)] ++ es.map _) = _
    rw [loadGraph_append, ih (fun x hx => h x (List.mem_cons_of_mem e hx))]
    have h1 := (h e (List.mem_cons_self e es)).1
    have h2 := (h e (List.mem_cons_self e es)).2
    simp [loadGraph, loadStep, jsTruthyTs_eq h1, jsTruthyTs_eq h2]

theorem loadGraph_relationRecs (rs : List Relation) :
    loadGraph (rs.map (fun r => Rec.relation r.«from» r.«to» r.relationType)) = ⟨[], rs⟩ := by
  induction rs with
  | nil => rfl
  | cons r rs ih =>
    rw [List.map_cons]
    show loadGraph ([Rec.relation r.«from» r.«to» r.relationType] ++ rs.map _) = _
    rw [loadGraph_append, ih]
    simp [loadGraph, loadStep]

/-! ### C4: round-trip of save and load -/

/-- C4, counterexample: an entity whose `created_at` is the (falsy) timestamp
`0` does not survive the round trip: the saved line omits the field, so the
reloaded record carries no `created_at` at all. -/
theorem c4_roundTrip_cex :
    loadGraph (saveGraph ⟨[⟨"a", "t", [], some 0, none⟩], []⟩) ≠
      (⟨[⟨"a", "t", [], some 0, none⟩], []⟩ : KnowledgeGraph) := by decide

/-- C4 (amended): for every graph whose timestamps are never the literal `0`
(absent or non-zero), loading the serialized form returns the graph exactly,
with entity order and relation order preserved. -/
theorem c4_roundTrip (g : KnowledgeGraph)
    (h : ∀ e ∈ g.entities, e.created_at ≠ some 0 ∧ e.updated_at ≠ some 0) :
    loadGraph (saveGraph g) = g := by
  obtain ⟨es, rs⟩ := g
  show loadGraph (es.map _ ++ rs.map _) = _
  rw [loadGraph_append, loadGraph_entityRecs es h, loadGraph_relationRecs rs]
  simp

/-- C4, witness: the round trip at a concrete graph with an absent and a
non-zero timestamp. -/
theorem c4_roundTrip_witness :
    loadGraph (saveGraph ⟨[⟨"a", "t", ["o"], some 3, none⟩], [⟨"a", "b", "r"⟩]⟩) =
      (⟨[⟨"a", "t", ["o"], some 3, none⟩], [⟨"a", "b", "r"⟩]⟩ : KnowledgeGraph) :=
  c4_roundTrip _ (by decide)

/-! ### C3: uniqueness of entity names under create_entities -/

/-- C3, counterexample: a single `create_entities` call listing two proposed
entities with the same fresh name appends both — the existence set is
computed once from the pre-state — so the resulting table holds the name
twice. -/
theorem c3_uniqueNames_cex :
    ¬ ((((createEntities [⟨"x", "t", [], none, none⟩, ⟨"x", "u", [], none, none⟩]
        ⟨[], []⟩ 0).1).entities.map Entity.name).Nodup) := by decide

/-- C3 (amended): `create_entities` keeps entity names unique provided the
names proposed within the call are themselves pairwise distinct. -/
theorem c3_uniqueNames (es : List Entity) (g : KnowledgeGraph) (now : Nat)
    (hg : (g.entities.map Entity.name).Nodup) (hes : (es.map Entity.name).Nodup) :
    (((createEntities es g now).1).entities.map Entity.name).Nodup := by
  simp only [createEntities]
  rw [List.map_append, List.map_map]
  have heq : (Entity.name ∘ fun e => { e with created_at := some now, updated_at := some now }) =
      Entity.name := funext fun e => rfl
  rw [heq]
  refine List.Nodup.append hg ?_ ?_
  · exact hes.sublist (List.Sublist.map Entity.name (List.filter_sublist es))
  · intro x hx hx2
    obtain ⟨e, he, hee⟩ := List.mem_map.mp hx2
    have h3 := List.of_mem_filter he
    simp only [decide_eq_true_eq] at h3
    rw [hee] at h3
    exact h3 (contains_iff.mpr hx)

/-- C3, witness: a concrete call with distinct proposed names keeps the
table's names unique. -/
theorem c3_uniqueNames_witness :
    (((createEntities [⟨"x", "t", [], none, none⟩] ⟨[⟨"y", "t", [], none, none⟩], []⟩ 5).1).entities.map
      Entity.name).Nodup :=
  c3_uniqueNames _ _ _ (by decide) (by decide)

/-! ### lookupLast and updateLastNamed lemmas -/

theorem lookupLast_none_iff (ents : List Entity) (n : String) :
    lookupLast ents n = none ↔ ∀ e ∈ ents, e.name ≠ n := by
  induction ents with
  | nil => simp [lookupLast]
  | cons e rest ih =>
    simp only [lookupLast]
    split
    · rename_i hA
      simp only [List.any_eq_true, decide_eq_true_eq] at hA
      obtain ⟨x, hx, hxn⟩ := hA
      rw [ih]
      constructor
      · intro h; exact absurd hxn (h x hx)
      · intro h y hy; exact h y (List.mem_cons_of_mem e hy)
    · split
      · rename_i he
        constructor
        · intro h; cases h
        · intro h; exact absurd he (h e (List.mem_cons_self e rest))
      · rename_i hA he
        rw [ih]
        constructor
        · intro h y hy
          rcases List.mem_cons.mp hy with rfl | hy'
          · exact he
          · exact h y hy'
        · intro h y hy; exact h y (List.mem_cons_of_mem e hy)

theorem lookupLast_some {ents : List Entity} {n : String} {e : Entity}
    (h : lookupLast ents n = some e) : e ∈ ents ∧ e.name = n := by
  induction ents with
  | nil => cases h
  | cons e0 rest ih =>
    simp only [lookupLast] at h
    split at h
    · obtain ⟨h1, h2⟩ := ih h
      exact ⟨List.mem_cons_of_mem e0 h1, h2⟩
    · split at h
      · rename_i he
        cases h
        exact ⟨List.mem_cons_self _ _, he⟩
      · obtain ⟨h1, h2⟩ := ih h
        exact ⟨List.mem_cons_of_mem e0 h1, h2⟩

theorem lookupLast_of_mem_nodup {ents : List Entity} {e : Entity}
    (hn : (ents.map Entity.name).Nodup) (he : e ∈ ents) :
    lookupLast ents e.name = some e := by
  induction ents with
  | nil => cases he
  | cons e0 rest ih =>
    rw [List.map_cons, List.nodup_cons] at hn
    simp only [lookupLast]
    rcases List.mem_cons.mp he with hEq | hm
    · have hA : ¬ ((rest.any fun e' => e'.name = e.name) = true) := by
        simp only [List.any_eq_true, decide_eq_true_eq, not_exists]
        intro x
        simp only [not_and]
        intro hx hxe
        apply hn.1
        have hx2 : x.name = e0.name := by rw [hxe, hEq]
        exact hx2 ▸ List.mem_map_of_mem Entity.name hx
      rw [if_neg hA, if_pos (show e0.name = e.name by rw [hEq]), hEq]
    · rw [if_pos]
      · exact ih hn.2 hm
      · simp only [List.any_eq_true, decide_eq_true_eq]
        exact ⟨e, hm, rfl⟩

theorem updateLastNamed_decomp {ents : List Entity} {n : String} {e : Entity}
    (h : lookupLast ents n = some e) (f : Entity → Entity) :
    ∃ pre post, ents = pre ++ e :: post ∧ updateLastNamed n f ents = pre ++ f e :: post := by
  induction ents with
  | nil => cases h
  | cons e0 rest ih =>
    simp only [lookupLast] at h
    simp only [updateLastNamed]
    split at h
    · rename_i hA
      obtain ⟨pre, post, h1, h2⟩ := ih h
      refine ⟨e0 :: pre, post, by rw [h1]; rfl, ?_⟩
      rw [if_pos hA, h2]
      rfl
    · rename_i hA
      split at h
      · rename_i he
        cases h
        exact ⟨[], rest, rfl, by rw [if_neg hA, if_pos he]; rfl⟩
      · rename_i he
        obtain ⟨pre, post, h1, h2⟩ := ih h
        refine ⟨e0 :: pre, post, by rw [h1]; rfl, ?_⟩
        rw [if_neg hA, if_neg he, h2]
        rfl

/-! ### C5: no duplicate observations -/

theorem addObsCore_cons_none {o : ObsInput} {os : List ObsInput} {ents : List Entity}
    {now : Nat} (hl : lookupLast ents o.entityName = none) :
    addObsCore (o :: os) ents now =
      (ents, Except.error ("Entity " ++ o.entityName ++ " not found")) := by
  simp only [addObsCore, hl]

theorem addObsCore_cons_some {o : ObsInput} {os : List ObsInput} {ents : List Entity}
    {now : Nat} {e0 : Entity} (hl : lookupLast ents o.entityName = some e0) :
    addObsCore (o :: os) ents now =
      ((addObsCore os (addObsEnts o e0 ents now) now).1,
        match (addObsCore os (addObsEnts o e0 ents now) now).2 with
        | Except.ok res => Except.ok
            (⟨o.entityName, o.contents.filter (fun c => ¬ e0.observations.contains c)⟩ :: res)
        | Except.error m => Except.error m) := by
  simp only [addObsCore, hl]

theorem addObsEnts_nodupObs {o : ObsInput} {e0 : Entity} {ents : List Entity} {now : Nat}
    (hl : lookupLast ents o.entityName = some e0)
    (h1 : ∀ e ∈ ents, e.observations.Nodup) (h2 : o.contents.Nodup) :
    ∀ e ∈ addObsEnts o e0 ents now, e.observations.Nodup := by
  intro e he
  simp only [addObsEnts] at he
  split at he
  · exact h1 e he
  · obtain ⟨pre, post, hdec, hupd⟩ := updateLastNamed_decomp hl
      (obsAppendFn (o.contents.filter (fun c => ¬ e0.observations.contains c)) now)
    rw [hupd] at he
    rcases List.mem_append.mp he with hx1 | hx2
    · exact h1 e (by rw [hdec]; exact List.mem_append_left _ hx1)
    · rcases List.mem_cons.mp hx2 with hEq | hx3
      · rw [hEq]
        show (e0.observations ++ _).Nodup
        refine List.Nodup.append ?_ (h2.filter _) ?_
        · exact h1 e0 (by rw [hdec]; exact List.mem_append_right _ (List.mem_cons_self e0 post))
        · intro a ha hb
          have hmem := List.of_mem_filter hb
          simp only [decide_eq_true_eq] at hmem
          exact hmem (contains_iff.mpr ha)
      · exact h1 e (by rw [hdec]; exact List.mem_append_right _ (List.mem_cons_of_mem e0 hx3))

theorem addObsCore_nodupObs (inputs : List ObsInput) :
    ∀ (ents : List Entity) (now : Nat),
    (∀ e ∈ ents, e.observations.Nodup) → (∀ o ∈ inputs, o.contents.Nodup) →
    ∀ e ∈ (addObsCore inputs ents now).1, e.observations.Nodup := by
  induction inputs with
  | nil => intro ents now h1 _ e he; exact h1 e he
  | cons o os ih =>
    intro ents now h1 h2 e he
    cases hl : lookupLast ents o.entityName with
    | none =>
      rw [addObsCore_cons_none hl] at he
      exact h1 e he
    | some e0 =>
      rw [addObsCore_cons_some hl] at he
      exact ih _ now (addObsEnts_nodupObs hl h1 (h2 o (List.mem_cons_self o os)))
        (fun o' ho' => h2 o' (List.mem_cons_of_mem o ho')) e he

theorem addObservationsRun_graph (inputs : List ObsInput) (file : List Rec) (now : Nat) :
    (addObservationsRun inputs file now).2.1.entities =
      (addObsCore inputs (loadGraph file).entities now).1 := by
  simp only [addObservationsRun]
  cases (addObsCore inputs (loadGraph file).entities now).2 <;> rfl

/-- C5, counterexample: a single `add_observations` call whose contents list
the same fresh string twice appends it twice — the presence snapshot is
taken before the appends — leaving a duplicated observation. -/
theorem c5_noDupObs_cex :
    ¬ ∀ e ∈ (addObservationsRun [⟨"e", ["x", "x"]⟩]
        [Rec.entity "e" "t" [] none none] 7).2.1.entities,
      e.observations.Nodup := by decide

/-- C5 (amended): `add_observations` and `create_entities` keep every
entity's observation list duplicate-free, provided each target's contents
list and each proposed entity's observation list is itself duplicate-free. -/
theorem c5_noDupObs (inputs : List ObsInput) (es : List Entity) (g : KnowledgeGraph)
    (file : List Rec) (now : Nat) :
    ((∀ e ∈ (loadGraph file).entities, e.observations.Nodup) →
      (∀ o ∈ inputs, o.contents.Nodup) →
      ∀ e ∈ (addObservationsRun inputs file now).2.1.entities, e.observations.Nodup) ∧
    ((∀ e ∈ g.entities, e.observations.Nodup) → (∀ e ∈ es, e.observations.Nodup) →
      ∀ e ∈ ((createEntities es g now).1).entities, e.observations.Nodup) := by
  constructor
  · intro h1 h2 e he
    rw [addObservationsRun_graph] at he
    exact addObsCore_nodupObs inputs _ now h1 h2 e he
  · intro h1 h2 e he
    simp only [createEntities] at he
    rcases List.mem_append.mp he with hx | hx
    · exact h1 e hx
    · obtain ⟨e0, he0, heq⟩ := List.mem_map.mp hx
      have : e.observations = e0.observations := by rw [← heq]
      rw [this]
      exact h2 e0 (List.mem_of_mem_filter he0)

/-- C5, witness: duplicate-free inputs at concrete calls keep every
observation list duplicate-free. -/
theorem c5_noDupObs_witness :
    (∀ e ∈ (addObservationsRun [⟨"e", ["x", "y"]⟩]
        [Rec.entity "e" "t" ["z"] none none] 7).2.1.entities, e.observations.Nodup) ∧
    (∀ e ∈ ((createEntities [⟨"w", "t", ["a", "b"], none, none⟩] ⟨[], []⟩ 1).1).entities,
      e.observations.Nodup) :=
  ⟨(c5_noDupObs [⟨"e", ["x", "y"]⟩] [] ⟨[], []⟩ [Rec.entity "e" "t" ["z"] none none] 7).1
      (by decide) (by decide),
   (c5_noDupObs [] [⟨"w", "t", ["a", "b"], none, none⟩] ⟨[], []⟩ [] 1).2
      (by decide) (by decide)⟩

/-! ### C7: delete_entities cascade -/

/-- C7 (confirmed): after `delete_entities(names)` no listed entity and no
relation touching a listed name remains; everything not touching a listed
name survives in order (sublist), and a call listing only absent names
leaves the graph unchanged. -/
theorem c7_deleteEntities (names : List String) (g : KnowledgeGraph) :
    (∀ e ∈ (deleteEntities names g).entities, ¬ e.name ∈ names) ∧
    (∀ r ∈ (deleteEntities names g).relations, ¬ r.«from» ∈ names ∧ ¬ r.«to» ∈ names) ∧
    (deleteEntities names g).entities.Sublist g.entities ∧
    (deleteEntities names g).relations.Sublist g.relations ∧
    (∀ e ∈ g.entities, ¬ e.name ∈ names → e ∈ (deleteEntities names g).entities) ∧
    (∀ r ∈ g.relations, ¬ r.«from» ∈ names → ¬ r.«to» ∈ names →
      r ∈ (deleteEntities names g).relations) ∧
    ((∀ e ∈ g.entities, ¬ e.name ∈ names) →
      (∀ r ∈ g.relations, ¬ r.«from» ∈ names ∧ ¬ r.«to» ∈ names) →
      deleteEntities names g = g) := by
  refine ⟨?_, ?_, ?_, ?_, ?_, ?_, ?_⟩
  · intro e he
    have := List.of_mem_filter he
    simp only [decide_eq_true_eq] at this
    exact fun hmem => this (contains_iff.mpr hmem)
  · intro r hr
    have := List.of_mem_filter hr
    simp only [Bool.decide_and, Bool.and_eq_true, decide_eq_true_eq] at this
    exact ⟨fun hmem => this.1 (contains_iff.mpr hmem), fun hmem => this.2 (contains_iff.mpr hmem)⟩
  · exact List.filter_sublist g.entities
  · exact List.filter_sublist g.relations
  · intro e he hnm
    refine List.mem_filter.mpr ⟨he, ?_⟩
    simp only [decide_eq_true_eq]
    exact fun hc => hnm (contains_iff.mp hc)
  · intro r hr h1 h2
    refine List.mem_filter.mpr ⟨hr, ?_⟩
    simp only [Bool.decide_and, Bool.and_eq_true, decide_eq_true_eq]
    exact ⟨fun hc => h1 (contains_iff.mp hc), fun hc => h2 (contains_iff.mp hc)⟩
  · intro h1 h2
    simp only [deleteEntities]
    have he : g.entities.filter (fun e => ¬ names.contains e.name) = g.entities := by
      refine List.filter_eq_self.mpr ?_
      intro e he
      simp only [decide_eq_true_eq]
      exact fun hc => h1 e he (contains_iff.mp hc)
    have hr : g.relations.filter
        (fun r => ¬ names.contains r.«from» ∧ ¬ names.contains r.«to») = g.relations := by
      refine List.filter_eq_self.mpr ?_
      intro r hr
      simp only [Bool.decide_and, Bool.and_eq_true, decide_eq_true_eq]
      exact ⟨fun hc => (h2 r hr).1 (contains_iff.mp hc),
             fun hc => (h2 r hr).2 (contains_iff.mp hc)⟩
    rw [he, hr]

/-- C7, witness: a concrete deletion keeps an untouched entity. -/
theorem c7_deleteEntities_witness :
    (⟨"y", "t", [], none, none⟩ : Entity) ∈
      (deleteEntities ["x"] ⟨[⟨"x", "t", [], none, none⟩, ⟨"y", "t", [], none, none⟩],
        [⟨"x", "y", "r"⟩]⟩).entities :=
  (c7_deleteEntities ["x"] _).2.2.2.2.1 _ (by decide) (by decide)

/-! ### C9: open_nodes with duplicated names -/

/-- C9 (confirmed): when the `names` argument of `open_nodes` lists an
existing entity name `k` times, the returned entity list carries that
entity's record once per occurrence, while the relation list (duplicate-free
in the store) stays duplicate-free. -/
theorem c9_openNodes (g : KnowledgeGraph) (names : List String) (n : String) (e : Entity)
    (hn : (g.entities.map Entity.name).Nodup) (he : e ∈ g.entities) (hname : e.name = n) :
    ((openNodes names g).entities).count e = names.count n ∧
    (g.relations.Nodup → (openNodes names g).relations.Nodup) := by
  constructor
  · have hiff : ∀ m, lookupLast g.entities m = some e ↔ m = n := by
      intro m
      constructor
      · intro h
        rw [← (lookupLast_some h).2, hname]
      · rintro rfl
        rw [← hname]
        exact lookupLast_of_mem_nodup hn he
    induction names with
    | nil => simp [openNodes]
    | cons m ms ih =>
      simp only [openNodes, List.map_cons] at *
      cases hfm : lookupLast g.entities m with
      | none =>
        rw [List.reduceOption_cons_of_none]
        have hmn : ¬ (m = n) := fun hEq => by rw [(hiff m).mpr hEq] at hfm; cases hfm
        have hnm : ¬ (n = m) := fun hEq => hmn hEq.symm
        simp [List.count_cons, hmn, hnm, ih]
      | some x =>
        rw [List.reduceOption_cons_of_some]
        by_cases hx : x = e
        · subst hx
          have hmn : m = n := (hiff m).mp hfm
          subst hmn
          simp [List.count_cons, ih]
        · have hmn : ¬ (m = n) := fun hEq => hx (by rw [(hiff m).mpr hEq] at hfm; cases hfm; rfl)
          have hnm : ¬ (n = m) := fun hEq => hmn hEq.symm
          have hex : ¬ (e = x) := fun hEq => hx hEq.symm
          simp [List.count_cons, hmn, hnm, hx, hex, ih]
  · intro hrel
    exact hrel.filter _

/-! ### Name invariance and frame lemmas for add_observations -/

theorem any_name_eq (l1 l2 : List Entity)
    (h : l1.map Entity.name = l2.map Entity.name) (n : String) :
    (l1.any fun e => e.name = n) = (l2.any fun e => e.name = n) := by
  have key : ∀ (l : List Entity),
      (l.any fun e => e.name = n) = ((l.map Entity.name).any fun s => s = n) := by
    intro l
    induction l with
    | nil => rfl
    | cons x xs ih => simp [ih]
  rw [key, key, h]

theorem updateLastNamed_map_name (f : Entity → Entity) (hf : ∀ x, (f x).name = x.name)
    (m : String) (ents : List Entity) :
    (updateLastNamed m f ents).map Entity.name = ents.map Entity.name := by
  induction ents with
  | nil => rfl
  | cons e0 rest ih =>
    simp only [updateLastNamed]
    split
    · simp only [List.map_cons, ih]
    · split
      · simp only [List.map_cons, hf e0]
      · simp only [List.map_cons, ih]

theorem addObsEnts_map_name (o : ObsInput) (e0 : Entity) (ents : List Entity) (now : Nat) :
    (addObsEnts o e0 ents now).map Entity.name = ents.map Entity.name := by
  simp only [addObsEnts]
  split
  · rfl
  · exact updateLastNamed_map_name (obsAppendFn _ now) (fun x => rfl) _ _

theorem addObsCore_map_name (inputs : List ObsInput) :
    ∀ (ents : List Entity) (now : Nat),
    ((addObsCore inputs ents now).1).map Entity.name = ents.map Entity.name := by
  induction inputs with
  | nil => intro ents now; rfl
  | cons o os ih =>
    intro ents now
    cases hl : lookupLast ents o.entityName with
    | none => rw [addObsCore_cons_none hl]
    | some e0 =>
      rw [addObsCore_cons_some hl]
      show ((addObsCore os (addObsEnts o e0 ents now) now).1).map Entity.name = _
      rw [ih, addObsEnts_map_name]

theorem lookupLast_mem_name_iff (ents : List Entity) (n : String) :
    (∃ e, lookupLast ents n = some e) ↔ n ∈ ents.map Entity.name := by
  cases hl : lookupLast ents n with
  | none =>
    constructor
    · intro h2
      obtain ⟨e, he⟩ := h2
      cases he
    · intro hmem
      rw [lookupLast_none_iff] at hl
      obtain ⟨x, hx, hxn⟩ := List.mem_map.mp hmem
      exact absurd hxn (hl x hx)
  | some e =>
    constructor
    · intro _
      obtain ⟨hmem, hname⟩ := lookupLast_some hl
      exact hname ▸ List.mem_map_of_mem Entity.name hmem
    · intro _
      exact ⟨e, rfl⟩

theorem lookupLast_updateLastNamed_other (f : Entity → Entity) (hf : ∀ x, (f x).name = x.name)
    {m n : String} (hmn : n ≠ m) (ents : List Entity) :
    lookupLast (updateLastNamed m f ents) n = lookupLast ents n := by
  induction ents with
  | nil => rfl
  | cons e0 rest ih =>
    have hany := any_name_eq (updateLastNamed m f rest) rest
      (updateLastNamed_map_name f hf m rest) n
    by_cases hA : (rest.any fun e' => e'.name = m) = true
    · simp only [updateLastNamed, if_pos hA, lookupLast, hany, ih]
    · by_cases hB : e0.name = m
      · simp only [updateLastNamed, if_neg hA, if_pos hB, lookupLast]
        by_cases hC : (rest.any fun e' => e'.name = n) = true
        · simp only [if_pos hC]
        · rw [if_neg hC, if_neg hC, if_neg (fun h : (f e0).name = n => hmn (by
            rw [hf e0, hB] at h; exact h.symm)), if_neg (fun h : e0.name = n => hmn (by
            rw [hB] at h; exact h.symm))]
      · simp only [updateLastNamed, if_neg hA, if_neg hB, lookupLast, hany, ih]

theorem lookupLast_updateLastNamed_self (f : Entity → Entity) (hf : ∀ x, (f x).name = x.name)
    (m : String) (ents : List Entity) :
    lookupLast (updateLastNamed m f ents) m = (lookupLast ents m).map f := by
  induction ents with
  | nil => rfl
  | cons e0 rest ih =>
    have hany := any_name_eq (updateLastNamed m f rest) rest
      (updateLastNamed_map_name f hf m rest) m
    by_cases hA : (rest.any fun e' => e'.name = m) = true
    · simp only [updateLastNamed, if_pos hA, lookupLast, hany, ih]
    · by_cases hB : e0.name = m
      · simp only [updateLastNamed, if_neg hA, if_pos hB, lookupLast]
        rw [if_pos (show (f e0).name = m by rw [hf e0]; exact hB)]
        rfl
      · simp only [updateLastNamed, if_neg hA, if_neg hB, lookupLast, hany, ih]

theorem addObsEnts_lookup_other {o : ObsInput} {e0 : Entity} {ents : List Entity}
    {now : Nat} {n : String} (hmn : n ≠ o.entityName) :
    lookupLast (addObsEnts o e0 ents now) n = lookupLast ents n := by
  simp only [addObsEnts]
  split
  · rfl
  · exact lookupLast_updateLastNamed_other (obsAppendFn _ now) (fun x => rfl) hmn ents

theorem addObsEnts_lookup_self {o : ObsInput} {e0 : Entity} {ents : List Entity} (now : Nat)
    (hl : lookupLast ents o.entityName = some e0) :
    ∃ e', lookupLast (addObsEnts o e0 ents now) o.entityName = some e' ∧
      e'.name = e0.name ∧
      e'.observations = e0.observations ++
        o.contents.filter (fun c => ¬ e0.observations.contains c) := by
  simp only [addObsEnts]
  split
  · rename_i hemp
    refine ⟨e0, hl, rfl, ?_⟩
    rw [List.isEmpty_iff] at hemp
    rw [hemp, List.append_nil]
  · refine ⟨obsAppendFn (o.contents.filter (fun c => ¬ e0.observations.contains c)) now e0,
      ?_, rfl, rfl⟩
    rw [lookupLast_updateLastNamed_self (obsAppendFn _ now) (fun x => rfl), hl]
    rfl

theorem addObsCore_lookup_frame (inputs : List ObsInput) :
    ∀ (ents : List Entity) (now : Nat) (n : String),
    (∀ o ∈ inputs, o.entityName ≠ n) →
    lookupLast ((addObsCore inputs ents now).1) n = lookupLast ents n := by
  induction inputs with
  | nil => intro ents now n _; rfl
  | cons o os ih =>
    intro ents now n h
    cases hl : lookupLast ents o.entityName with
    | none => rw [addObsCore_cons_none hl]
    | some e0 =>
      rw [addObsCore_cons_some hl]
      show lookupLast ((addObsCore os (addObsEnts o e0 ents now) now).1) n = _
      rw [ih _ now n (fun o' ho' => h o' (List.mem_cons_of_mem o ho')),
        addObsEnts_lookup_other (fun hEq => h o (List.mem_cons_self o os) hEq.symm)]

theorem forall2_imp_mem {α β : Type} {R S : α → β → Prop} :
    ∀ {l1 : List α} {l2 : List β}, List.Forall₂ R l1 l2 →
    (∀ a ∈ l1, ∀ b, R a b → S a b) → List.Forall₂ S l1 l2 := by
  intro l1 l2 h
  induction h with
  | nil => intro _; exact List.Forall₂.nil
  | cons hab _ ih =>
    intro himp
    exact List.Forall₂.cons (himp _ (List.mem_cons_self _ _) _ hab)
      (ih fun a ha b hr => himp a (List.mem_cons_of_mem _ ha) b hr)

theorem addObsCore_error_of_missing (inputs : List ObsInput) :
    ∀ (ents : List Entity) (now : Nat),
    (∃ o ∈ inputs, ¬ o.entityName ∈ ents.map Entity.name) →
    ∃ m, (addObsCore inputs ents now).2 = Except.error m := by
  induction inputs with
  | nil => intro ents now h; obtain ⟨o, ho, _⟩ := h; cases ho
  | cons o os ih =>
    intro ents now h
    cases hl : lookupLast ents o.entityName with
    | none => exact ⟨_, by rw [addObsCore_cons_none hl]⟩
    | some e0 =>
      obtain ⟨o', ho', hmiss⟩ := h
      have ho'' : o' ∈ os := by
        rcases List.mem_cons.mp ho' with rfl | h2
        · exact absurd ((lookupLast_mem_name_iff ents o'.entityName).mp ⟨e0, hl⟩) hmiss
        · exact h2
      have hmiss' : ¬ o'.entityName ∈ (addObsEnts o e0 ents now).map Entity.name := by
        rw [addObsEnts_map_name]; exact hmiss
      obtain ⟨m, hm⟩ := ih (addObsEnts o e0 ents now) now ⟨o', ho'', hmiss'⟩
      refine ⟨m, ?_⟩
      simp only [addObsCore_cons_some hl, hm]

theorem addObsCore_ok_of_present (inputs : List ObsInput) :
    ∀ (ents : List Entity) (now : Nat),
    (∀ o ∈ inputs, o.entityName ∈ ents.map Entity.name) →
    ∃ res, (addObsCore inputs ents now).2 = Except.ok res ∧
      List.Forall₂ (fun (o : ObsInput) (r : ObsResult) => r.entityName = o.entityName)
        inputs res := by
  induction inputs with
  | nil => intro ents now _; exact ⟨[], rfl, List.Forall₂.nil⟩
  | cons o os ih =>
    intro ents now h
    cases hl : lookupLast ents o.entityName with
    | none =>
      exfalso
      obtain ⟨e, he⟩ := (lookupLast_mem_name_iff ents o.entityName).mpr
        (h o (List.mem_cons_self o os))
      rw [hl] at he
      cases he
    | some e0 =>
      have h' : ∀ o' ∈ os, o'.entityName ∈ (addObsEnts o e0 ents now).map Entity.name := by
        intro o' ho'
        rw [addObsEnts_map_name]
        exact h o' (List.mem_cons_of_mem o ho')
      obtain ⟨res, hres, hfa⟩ := ih (addObsEnts o e0 ents now) now h'
      refine ⟨⟨o.entityName, o.contents.filter (fun c => ¬ e0.observations.contains c)⟩ :: res,
        ?_, List.Forall₂.cons rfl hfa⟩
      simp only [addObsCore_cons_some hl, hres]

theorem addObsCore_results_distinct (inputs : List ObsInput) :
    ∀ (ents : List Entity) (now : Nat),
    ((ents.map Entity.name).Nodup) → ((inputs.map ObsInput.entityName).Nodup) →
    (∀ o ∈ inputs, o.entityName ∈ ents.map Entity.name) →
    ∃ res, (addObsCore inputs ents now).2 = Except.ok res ∧
      List.Forall₂ (fun (o : ObsInput) (r : ObsResult) =>
        r.entityName = o.entityName ∧
        ∀ e ∈ ents, e.name = o.entityName →
          r.addedObservations = o.contents.filter (fun c => ¬ e.observations.contains c))
        inputs res := by
  induction inputs with
  | nil => intro ents now _ _ _; exact ⟨[], rfl, List.Forall₂.nil⟩
  | cons o os ih =>
    intro ents now hn hd h
    cases hl : lookupLast ents o.entityName with
    | none =>
      exfalso
      obtain ⟨e, he⟩ := (lookupLast_mem_name_iff ents o.entityName).mpr
        (h o (List.mem_cons_self o os))
      rw [hl] at he
      cases he
    | some e0 =>
      rw [List.map_cons, List.nodup_cons] at hd
      have hn' : ((addObsEnts o e0 ents now).map Entity.name).Nodup := by
        rw [addObsEnts_map_name]; exact hn
      have h' : ∀ o' ∈ os, o'.entityName ∈ (addObsEnts o e0 ents now).map Entity.name := by
        intro o' ho'
        rw [addObsEnts_map_name]
        exact h o' (List.mem_cons_of_mem o ho')
      obtain ⟨res, hres, hfa⟩ := ih (addObsEnts o e0 ents now) now hn' hd.2 h'
      refine ⟨⟨o.entityName, o.contents.filter (fun c => ¬ e0.observations.contains c)⟩ :: res,
        ?_, List.Forall₂.cons ⟨rfl, ?_⟩ ?_⟩
      · simp only [addObsCore_cons_some hl, hres]
      · intro e he hname
        have : lookupLast ents o.entityName = some e := by
          rw [← hname]
          exact lookupLast_of_mem_nodup hn he
        rw [hl] at this
        cases this
        rfl
      · refine forall2_imp_mem hfa ?_
        intro o' ho' r hr
        refine ⟨hr.1, ?_⟩
        intro e he hname
        have hne : o'.entityName ≠ o.entityName := by
          intro hEq
          exact hd.1 (hEq ▸ List.mem_map_of_mem ObsInput.entityName ho')
        have hl1 : lookupLast ents o'.entityName = some e := by
          rw [← hname]
          exact lookupLast_of_mem_nodup hn he
        have hl2 : lookupLast (addObsEnts o e0 ents now) o'.entityName = some e := by
          rw [addObsEnts_lookup_other hne]
          exact hl1
        exact hr.2 e (lookupLast_some hl2).1 hname

theorem addObsCore_post_distinct (inputs : List ObsInput) :
    ∀ (ents : List Entity) (now : Nat),
    ((ents.map Entity.name).Nodup) → ((inputs.map ObsInput.entityName).Nodup) →
    (∀ o ∈ inputs, o.entityName ∈ ents.map Entity.name) →
    ∀ o ∈ inputs, ∀ e ∈ ents, e.name = o.entityName →
      ∃ e', e' ∈ (addObsCore inputs ents now).1 ∧ e'.name = o.entityName ∧
        e'.observations = e.observations ++
          o.contents.filter (fun c => ¬ e.observations.contains c) := by
  induction inputs with
  | nil => intro ents now _ _ _ o ho; cases ho
  | cons o os ih =>
    intro ents now hn hd h o' ho' e he hname
    cases hl : lookupLast ents o.entityName with
    | none =>
      exfalso
      obtain ⟨x, hx⟩ := (lookupLast_mem_name_iff ents o.entityName).mpr
        (h o (List.mem_cons_self o os))
      rw [hl] at hx
      cases hx
    | some e0 =>
      rw [List.map_cons, List.nodup_cons] at hd
      have hn' : ((addObsEnts o e0 ents now).map Entity.name).Nodup := by
        rw [addObsEnts_map_name]; exact hn
      have h' : ∀ x ∈ os, x.entityName ∈ (addObsEnts o e0 ents now).map Entity.name := by
        intro x hx
        rw [addObsEnts_map_name]
        exact h x (List.mem_cons_of_mem o hx)
      rw [addObsCore_cons_some hl]
      rcases List.mem_cons.mp ho' with rfl | ho''
      · have he0 : e = e0 := by
          have : lookupLast ents o'.entityName = some e := by
            rw [← hname]
            exact lookupLast_of_mem_nodup hn he
          rw [hl] at this
          cases this
          rfl
        subst he0
        obtain ⟨e1, hl1, hname1, hobs1⟩ := addObsEnts_lookup_self now hl
        have hframe : lookupLast ((addObsCore os (addObsEnts o' e ents now) now).1)
            o'.entityName = some e1 := by
          rw [addObsCore_lookup_frame os _ now o'.entityName ?_]
          · exact hl1
          · intro x hx hEq
            exact hd.1 (hEq ▸ List.mem_map_of_mem ObsInput.entityName hx)
        refine ⟨e1, (lookupLast_some hframe).1, ?_, hobs1⟩
        rw [hname1, hname]
      · have hne : o'.entityName ≠ o.entityName := by
          intro hEq
          exact hd.1 (hEq ▸ List.mem_map_of_mem ObsInput.entityName ho'')
        have hl2 : lookupLast (addObsEnts o e0 ents now) o'.entityName = some e := by
          rw [addObsEnts_lookup_other hne, ← hname]
          exact lookupLast_of_mem_nodup hn he
        obtain ⟨e', hmem, hname', hobs'⟩ := ih (addObsEnts o e0 ents now) now hn' hd.2 h'
          o' ho'' e (lookupLast_some hl2).1 hname
        exact ⟨e', hmem, hname', hobs'⟩

theorem addObservationsRun_error {inputs : List ObsInput} {file : List Rec} {now : Nat}
    {m : String} (h : (addObsCore inputs (loadGraph file).entities now).2 = Except.error m) :
    addObservationsRun inputs file now =
      (file, ⟨(addObsCore inputs (loadGraph file).entities now).1,
        (loadGraph file).relations⟩, Except.error m) := by
  simp only [addObservationsRun, h]

theorem addObservationsRun_ok {inputs : List ObsInput} {file : List Rec} {now : Nat}
    {res : List ObsResult}
    (h : (addObsCore inputs (loadGraph file).entities now).2 = Except.ok res) :
    addObservationsRun inputs file now =
      (saveGraph ⟨(addObsCore inputs (loadGraph file).entities now).1, (loadGraph file).relations⟩,
       ⟨(addObsCore inputs (loadGraph file).entities now).1, (loadGraph file).relations⟩,
       Except.ok res) := by
  simp only [addObservationsRun, h]

/-! ### C1: add_observations all-or-nothing and per-target appends -/

/-- C1 (confirmed): an `add_observations` call with a missing target fails
with an entity-not-found error and leaves the persisted file untouched; a
call whose targets all exist succeeds, persists the updated graph, and —
for pairwise distinct targets over a duplicate-free table — returns per
target exactly the listed contents not already present among that entity's
observations, which are appended to it. -/
theorem c1_addObservations (inputs : List ObsInput) (file : List Rec) (now : Nat) :
    ((∃ o ∈ inputs, ¬ o.entityName ∈ (loadGraph file).entities.map Entity.name) →
      (∃ m, (addObservationsRun inputs file now).2.2 = Except.error m) ∧
      (addObservationsRun inputs file now).1 = file) ∧
    ((∀ o ∈ inputs, o.entityName ∈ (loadGraph file).entities.map Entity.name) →
      ∃ res, (addObservationsRun inputs file now).2.2 = Except.ok res ∧
        (addObservationsRun inputs file now).1 =
          saveGraph (addObservationsRun inputs file now).2.1 ∧
        List.Forall₂ (fun (o : ObsInput) (r : ObsResult) => r.entityName = o.entityName)
          inputs res) ∧
    (((loadGraph file).entities.map Entity.name).Nodup →
      (inputs.map ObsInput.entityName).Nodup →
      (∀ o ∈ inputs, o.entityName ∈ (loadGraph file).entities.map Entity.name) →
      (∃ res, (addObservationsRun inputs file now).2.2 = Except.ok res ∧
        List.Forall₂ (fun (o : ObsInput) (r : ObsResult) =>
          r.entityName = o.entityName ∧
          ∀ e ∈ (loadGraph file).entities, e.name = o.entityName →
            r.addedObservations = o.contents.filter (fun c => ¬ e.observations.contains c))
          inputs res) ∧
      ∀ o ∈ inputs, ∀ e ∈ (loadGraph file).entities, e.name = o.entityName →
        ∃ e', e' ∈ (addObservationsRun inputs file now).2.1.entities ∧
          e'.name = o.entityName ∧
          e'.observations = e.observations ++
            o.contents.filter (fun c => ¬ e.observations.contains c)) := by
  refine ⟨?_, ?_, ?_⟩
  · intro hmiss
    obtain ⟨m, hm⟩ := addObsCore_error_of_missing inputs (loadGraph file).entities now hmiss
    rw [addObservationsRun_error hm]
    exact ⟨⟨m, rfl⟩, rfl⟩
  · intro hpres
    obtain ⟨res, hres, hfa⟩ := addObsCore_ok_of_present inputs (loadGraph file).entities now hpres
    rw [addObservationsRun_ok hres]
    exact ⟨res, rfl, rfl, hfa⟩
  · intro hn hd hpres
    constructor
    · obtain ⟨res, hres, hfa⟩ :=
        addObsCore_results_distinct inputs (loadGraph file).entities now hn hd hpres
      rw [addObservationsRun_ok hres]
      exact ⟨res, rfl, hfa⟩
    · intro o ho e he hname
      obtain ⟨e', hmem, hname', hobs'⟩ :=
        addObsCore_post_distinct inputs (loadGraph file).entities now hn hd hpres o ho e he hname
      obtain ⟨res, hres, _⟩ := addObsCore_ok_of_present inputs (loadGraph file).entities now hpres
      rw [addObservationsRun_ok hres]
      exact ⟨e', hmem, hname', hobs'⟩

/-- C1, witness: a concrete failing call leaves the file unchanged; a
concrete successful call appends the genuinely new observation. -/
theorem c1_addObservations_witness :
    ((∃ m, (addObservationsRun [⟨"zz", ["x"]⟩] [Rec.entity "e" "t" [] none none] 7).2.2 =
        Except.error m) ∧
      (addObservationsRun [⟨"zz", ["x"]⟩] [Rec.entity "e" "t" [] none none] 7).1 =
        [Rec.entity "e" "t" [] none none]) ∧
    (∃ e', e' ∈ (addObservationsRun [⟨"e", ["x", "w"]⟩]
        [Rec.entity "e" "t" ["w"] none none] 7).2.1.entities ∧
      e'.name = "e" ∧
      e'.observations = ["w"] ++ (["x", "w"].filter (fun c => ¬ (["w"] : List String).contains c))) :=
  ⟨(c1_addObservations [⟨"zz", ["x"]⟩] [Rec.entity "e" "t" [] none none] 7).1
      ⟨⟨"zz", ["x"]⟩, by decide, by decide⟩,
   ((c1_addObservations [⟨"e", ["x", "w"]⟩] [Rec.entity "e" "t" ["w"] none none] 7).2.2
      (by decide) (by decide) (by decide)).2 ⟨"e", ["x", "w"]⟩ (by decide)
      ⟨"e", "t", ["w"], none, none⟩ (by decide) (by decide)⟩

/-! ### C10: partial in-memory mutation on failure -/

theorem addObsCore_append_error (pre : List ObsInput) :
    ∀ (bad : ObsInput) (rest : List ObsInput) (ents : List Entity) (now : Nat),
    (∀ o ∈ pre, o.entityName ∈ ents.map Entity.name) →
    (¬ bad.entityName ∈ ents.map Entity.name) →
    (addObsCore (pre ++ bad :: rest) ents now).1 = (addObsCore pre ents now).1 ∧
    ∃ m, (addObsCore (pre ++ bad :: rest) ents now).2 = Except.error m := by
  induction pre with
  | nil =>
    intro bad rest ents now _ hbad
    have hl : lookupLast ents bad.entityName = none := by
      rw [lookupLast_none_iff]
      intro e he hname
      exact hbad (hname ▸ List.mem_map_of_mem Entity.name he)
    rw [List.nil_append, addObsCore_cons_none hl]
    exact ⟨rfl, _, rfl⟩
  | cons o pre' ih =>
    intro bad rest ents now hpre hbad
    have ho : o.entityName ∈ ents.map Entity.name := hpre o (List.mem_cons_self o pre')
    obtain ⟨e0, hl⟩ : ∃ e0, lookupLast ents o.entityName = some e0 :=
      (lookupLast_mem_name_iff ents o.entityName).mpr ho
    have hpre' : ∀ x ∈ pre', x.entityName ∈ (addObsEnts o e0 ents now).map Entity.name := by
      intro x hx
      rw [addObsEnts_map_name]
      exact hpre x (List.mem_cons_of_mem o hx)
    have hbad' : ¬ bad.entityName ∈ (addObsEnts o e0 ents now).map Entity.name := by
      rw [addObsEnts_map_name]
      exact hbad
    obtain ⟨h1, m, hm⟩ := ih bad rest (addObsEnts o e0 ents now) now hpre' hbad'
    rw [List.cons_append]
    constructor
    · rw [addObsCore_cons_some hl, addObsCore_cons_some hl]
      exact h1
    · exact ⟨m, by simp only [addObsCore_cons_some hl, hm]⟩

/-- C10 (confirmed): when `add_observations` fails on a later missing
target, the persisted file is unchanged and the error is surfaced, yet the
in-memory graph behind the indexes keeps the observations already appended
to every earlier existing target — it diverges from the file until the next
load. -/
theorem c10_partialMutation (pre : List ObsInput) (bad : ObsInput) (rest : List ObsInput)
    (file : List Rec) (now : Nat)
    (hpre : ∀ o ∈ pre, o.entityName ∈ (loadGraph file).entities.map Entity.name)
    (hbad : ¬ bad.entityName ∈ (loadGraph file).entities.map Entity.name) :
    (addObservationsRun (pre ++ bad :: rest) file now).1 = file ∧
    (∃ m, (addObservationsRun (pre ++ bad :: rest) file now).2.2 = Except.error m) ∧
    (addObservationsRun (pre ++ bad :: rest) file now).2.1.entities =
      (addObsCore pre (loadGraph file).entities now).1 ∧
    (((loadGraph file).entities.map Entity.name).Nodup →
      (pre.map ObsInput.entityName).Nodup →
      ∀ o ∈ pre, ∀ e ∈ (loadGraph file).entities, e.name = o.entityName →
        ∃ e', e' ∈ (addObservationsRun (pre ++ bad :: rest) file now).2.1.entities ∧
          e'.name = o.entityName ∧
          e'.observations = e.observations ++
            o.contents.filter (fun c => ¬ e.observations.contains c) ∧
          (o.contents.filter (fun c => ¬ e.observations.contains c) ≠ [] →
            e'.observations ≠ e.observations)) := by
  obtain ⟨hfst, m, hm⟩ :=
    addObsCore_append_error pre bad rest (loadGraph file).entities now hpre hbad
  rw [addObservationsRun_error hm]
  refine ⟨rfl, ⟨m, rfl⟩, hfst, ?_⟩
  intro hn hd o ho e he hname
  obtain ⟨e', hmem, hname', hobs'⟩ :=
    addObsCore_post_distinct pre (loadGraph file).entities now hn hd hpre o ho e he hname
  refine ⟨e', by rw [hfst]; exact hmem, hname', hobs', ?_⟩
  intro hne hEq
  apply hne
  have := congrArg List.length hEq
  rw [hobs', List.length_append] at this
  have h0 : (o.contents.filter (fun c => ¬ e.observations.contains c)).length = 0 := by omega
  exact List.length_eq_zero.mp h0

/-- C10, witness: the concrete call `[{e, [x]}, {zz, [y]}]` with `zz`
missing keeps `x` on `e` in memory while the file still lacks it. -/
theorem c10_partialMutation_witness :
    (addObservationsRun [⟨"e", ["x"]⟩, ⟨"zz", ["y"]⟩]
        [Rec.entity "e" "t" [] none none] 7).1 = [Rec.entity "e" "t" [] none none] ∧
    ∃ e', e' ∈ (addObservationsRun [⟨"e", ["x"]⟩, ⟨"zz", ["y"]⟩]
        [Rec.entity "e" "t" [] none none] 7).2.1.entities ∧
      e'.name = "e" ∧
      e'.observations = [] ++ (["x"].filter (fun c => ¬ ([] : List String).contains c)) ∧
      (["x"].filter (fun c => ¬ ([] : List String).contains c) ≠ [] →
        e'.observations ≠ []) :=
  ⟨(c10_partialMutation [⟨"e", ["x"]⟩] ⟨"zz", ["y"]⟩ [] [Rec.entity "e" "t" [] none none] 7
      (by decide) (by decide)).1,
   (c10_partialMutation [⟨"e", ["x"]⟩] ⟨"zz", ["y"]⟩ [] [Rec.entity "e" "t" [] none none] 7
      (by decide) (by decide)).2.2.2 (by decide) (by decide) ⟨"e", ["x"]⟩ (by decide)
      ⟨"e", "t", [], none, none⟩ (by decide) (by decide)⟩

/-- C9, witness: a doubled name yields the record twice; relations stay
unique. -/
theorem c9_openNodes_witness :
    ((openNodes ["a", "a"] ⟨[⟨"a", "t", [], none, none⟩], [⟨"a", "b", "r"⟩]⟩).entities).count
        ⟨"a", "t", [], none, none⟩ = (["a", "a"]).count "a" ∧
    (openNodes ["a", "a"] ⟨[⟨"a", "t", [], none, none⟩], [⟨"a", "b", "r"⟩]⟩).relations.Nodup :=
  ⟨(c9_openNodes _ ["a", "a"] "a" _ (by decide) (by decide) (by decide)).1,
   (c9_openNodes _ ["a", "a"] "a" ⟨"a", "t", [], none, none⟩ (by decide) (by decide)
      (by decide)).2 (by decide)⟩

/-! ### C6: hop cap of the pairwise shortest-path routine -/

theorem dijkstraLoop_path_le (adj : List (String × List String)) (degree : List (String × Nat))
    («to» : String) (maxLen : Nat) :
    ∀ (fuel : Nat) (pq : List (ℝ × String)) (dist : List (String × ℝ))
      (parent : List (String × String)) (p : List String),
    dijkstraLoop adj degree «to» maxLen fuel pq dist parent = some p →
      p.length ≤ maxLen + 1 := by
  intro fuel
  induction fuel with
  | zero => intro pq dist parent p h; cases h
  | succ fuel ih =>
    intro pq dist parent p h
    simp only [dijkstraLoop] at h
    split at h
    · cases h
    · split_ifs at h with h1 h2
      · split at h
        · cases h
        · split_ifs at h with h3
          cases h
          omega
      · exact ih _ _ _ _ h
      · exact ih _ _ _ _ h

theorem findShortestPath_length {fuel : Nat} {a b : String} {g : KnowledgeGraph}
    {maxLen : Nat} {p : List String}
    (h : findShortestPath fuel a b g maxLen = some p) : p.length ≤ maxLen + 1 := by
  unfold findShortestPath at h
  split_ifs at h with hab
  · cases h
    simp
  · exact dijkstraLoop_path_le _ _ _ _ _ _ _ _ _ h

theorem findShortestPath_self (fuel : Nat) (a : String) (g : KnowledgeGraph) (maxLen : Nat) :
    findShortestPath fuel a a g maxLen = some [a] := by
  simp [findShortestPath]

theorem jsAdd_mem {s : List String} {k x : String} (h : x ∈ jsAdd s k) : x ∈ s ∨ x = k := by
  unfold jsAdd at h
  split at h
  · exact Or.inl h
  · rcases List.mem_append.mp h with h1 | h1
    · exact Or.inl h1
    · exact Or.inr (List.mem_singleton.mp h1)

theorem foldl_jsAdd_mem :
    ∀ (path conn : List String) (x : String), x ∈ path.foldl jsAdd conn →
      x ∈ conn ∨ x ∈ path := by
  intro path
  induction path with
  | nil => intro conn x h; exact Or.inl h
  | cons a ps ih =>
    intro conn x h
    rcases ih (jsAdd conn a) x h with h1 | h1
    · rcases jsAdd_mem h1 with h2 | h2
      · exact Or.inl h2
      · exact Or.inr (h2 ▸ List.mem_cons_self a ps)
    · exact Or.inr (List.mem_cons_of_mem a h1)

theorem steinerLoop_mem (fuel : Nat) (g : KnowledgeGraph) (maxLen : Nat) :
    ∀ (pairs : List (String × String)) (conn : List String) (n : String),
    n ∈ steinerLoop fuel g maxLen pairs conn →
      n ∈ conn ∨ ∃ a b p, findShortestPath fuel a b g maxLen = some p ∧ n ∈ p := by
  intro pairs
  induction pairs with
  | nil => intro conn n h; exact Or.inl h
  | cons ab ps ih =>
    intro conn n h
    obtain ⟨a, b⟩ := ab
    simp only [steinerLoop] at h
    cases hsp : findShortestPath fuel a b g maxLen with
    | none =>
      rw [hsp] at h
      exact ih conn n h
    | some path =>
      rw [hsp] at h
      rcases ih _ n h with h1 | h1
      · rcases foldl_jsAdd_mem path conn n h1 with h2 | h2
        · exact Or.inl h2
        · exact Or.inr ⟨a, b, path, hsp, h2⟩
      · exact Or.inr h1

theorem findSteinerTree_mem {fuel : Nat} {entries : List String} {g : KnowledgeGraph}
    {maxLen : Nat} {n : String} (h : n ∈ findSteinerTree fuel entries g maxLen) :
    n ∈ entries ∨ ∃ a b p, findShortestPath fuel a b g maxLen = some p ∧ n ∈ p := by
  unfold findSteinerTree at h
  split_ifs at h
  · exact Or.inl h
  · exact steinerLoop_mem fuel g maxLen _ _ _ h

/-- C6 (confirmed): every path returned by `findShortestPath` has at most
`maxLen` edges (the reconstructed path is discarded when longer); a source
equal to the target yields the single-node path; and every node the Steiner
loop adds beyond the entries lies on some returned — hence hop-capped —
pairwise path. -/
theorem c6_hopCap :
    (∀ (fuel : Nat) (a b : String) (g : KnowledgeGraph) (maxLen : Nat) (p : List String),
      findShortestPath fuel a b g maxLen = some p → p.length ≤ maxLen + 1) ∧
    (∀ (fuel : Nat) (a : String) (g : KnowledgeGraph) (maxLen : Nat),
      findShortestPath fuel a a g maxLen = some [a]) ∧
    (∀ (fuel : Nat) (entries : List String) (g : KnowledgeGraph) (maxLen : Nat) (n : String),
      n ∈ findSteinerTree fuel entries g maxLen →
      n ∈ entries ∨ ∃ a b p, findShortestPath fuel a b g maxLen = some p ∧ n ∈ p ∧
        p.length ≤ maxLen + 1) := by
  refine ⟨fun _ _ _ _ _ _ h => findShortestPath_length h,
    fun fuel a g maxLen => findShortestPath_self fuel a g maxLen, ?_⟩
  intro fuel entries g maxLen n h
  rcases findSteinerTree_mem h with h1 | ⟨a, b, p, hp, hn⟩
  · exact Or.inl h1
  · exact Or.inr ⟨a, b, p, hp, hn, findShortestPath_length hp⟩

/-! ### Concrete evaluation of the search pipeline on cexGraph -/

theorem dijkstraLoop_succ (adj : List (String × List String)) (degree : List (String × Nat))
    («to» : String) (maxLen fuel : Nat) (pq : List (ℝ × String)) (dist : List (String × ℝ))
    (parent : List (String × String)) :
    dijkstraLoop adj degree «to» maxLen (fuel+1) pq dist parent =
      match sortPQ pq with
      | [] => none
      | (currDist, curr) :: rest =>
        if curr = «to» then
          match reconstruct parent (parent.length + 2) «to» with
          | none => none
          | some path => if path.length - 1 ≤ maxLen then some path else none
        else if gtInf currDist (jsTruthyDist (jmGet dist curr)) then
          dijkstraLoop adj degree «to» maxLen fuel rest dist parent
        else
          let st := ((jmGet adj curr).getD []).foldl (relaxStep degree currDist curr)
            (rest, dist, parent)
          dijkstraLoop adj degree «to» maxLen fuel st.1 st.2.1 st.2.2 := rfl

theorem dijkstraLoop_pop_relax {adj : List (String × List String)} {degree : List (String × Nat)}
    {«to» : String} {maxLen fuel : Nat} {pq : List (ℝ × String)} {dist : List (String × ℝ)}
    {parent : List (String × String)} {currDist : ℝ} {curr : String} {rest : List (ℝ × String)}
    (hsort : sortPQ pq = (currDist, curr) :: rest) (hne : ¬ curr = «to»)
    (hstale : ¬ gtInf currDist (jsTruthyDist (jmGet dist curr))) :
    dijkstraLoop adj degree «to» maxLen (fuel+1) pq dist parent =
      dijkstraLoop adj degree «to» maxLen fuel
        (((jmGet adj curr).getD []).foldl (relaxStep degree currDist curr) (rest, dist, parent)).1
        (((jmGet adj curr).getD []).foldl (relaxStep degree currDist curr) (rest, dist, parent)).2.1
        (((jmGet adj curr).getD []).foldl (relaxStep degree currDist curr)
          (rest, dist, parent)).2.2 := by
  rw [dijkstraLoop_succ, hsort]
  dsimp only
  rw [if_neg hne, if_neg hstale]

theorem dijkstraLoop_pop_target {adj : List (String × List String)} {degree : List (String × Nat)}
    {«to» : String} {maxLen fuel : Nat} {pq : List (ℝ × String)} {dist : List (String × ℝ)}
    {parent : List (String × String)} {currDist : ℝ} {rest : List (ℝ × String)}
    (hsort : sortPQ pq = (currDist, «to») :: rest) :
    dijkstraLoop adj degree «to» maxLen (fuel+1) pq dist parent =
      match reconstruct parent (parent.length + 2) «to» with
      | none => none
      | some path => if path.length - 1 ≤ maxLen then some path else none := by
  rw [dijkstraLoop_succ, hsort]
  dsimp only
  rw [if_pos rfl]

theorem cexAdj : buildAdj cexGraph.relations = cexA := by rfl

theorem cexDeg : buildDegree cexGraph.relations = cexD := by rfl

theorem cexSpathEval : findShortestPath 4 "" "tgt" cexGraph 5 = some ["ghost", "tgt"] := by
  have h3 : (0:ℝ) < Real.log (1 + 2) := Real.log_pos (by norm_num)
  have h2 : (0:ℝ) < Real.log (1 + 1) := Real.log_pos (by norm_num)
  have hA : ¬ ((1 + Real.log (1 + 2) : ℝ) = 0) := by intro h; linarith
  have hB : ¬ ((1 + Real.log (1 + 2) + (1 + Real.log (1 + 1)) : ℝ) = 0) := by intro h; linarith
  rw [findShortestPath, if_neg (by decide : ¬ ("" : String) = "tgt"), cexAdj, cexDeg]
  show dijkstraLoop cexA cexD "tgt" 5 (3+1) [((0:ℝ), "")] [("", (0:ℝ))] [] = _
  have hs1 : sortPQ [((0:ℝ), "")] = ((0:ℝ), "") :: [] := by simp [sortPQ, pqInsert]
  rw [dijkstraLoop_pop_relax hs1 (by decide) (by simp [jmGet, jsTruthyDist, gtInf])]
  have hf1 : ((jmGet cexA "").getD []).foldl (relaxStep cexD 0 "")
      ([], [("", (0:ℝ))], []) =
      ([(1 + Real.log (1 + 2), "ghost")],
       [("", 0), ("ghost", 1 + Real.log (1 + 2))], [("ghost", "")]) := by
    simp [cexA, cexD, relaxStep, jmGet, jmSet, jsTruthyDist, ltInf]
  rw [hf1]
  show dijkstraLoop cexA cexD "tgt" 5 (2+1) [(1 + Real.log (1 + 2), "ghost")]
    [("", 0), ("ghost", 1 + Real.log (1 + 2))] [("ghost", "")] = _
  have hs2 : sortPQ [(1 + Real.log (1 + 2), "ghost")] =
      (1 + Real.log (1 + 2), "ghost") :: [] := by simp [sortPQ, pqInsert]
  rw [dijkstraLoop_pop_relax hs2 (by decide) (by simp [jmGet, jsTruthyDist, gtInf, hA])]
  have hf2 : ((jmGet cexA "ghost").getD []).foldl
      (relaxStep cexD (1 + Real.log (1 + 2)) "ghost")
      ([], [("", 0), ("ghost", 1 + Real.log (1 + 2))], [("ghost", "")]) =
      ([(1 + Real.log (1 + 2) + (1 + Real.log (1 + 1)), ""),
        (1 + Real.log (1 + 2) + (1 + Real.log (1 + 1)), "tgt")],
       [("", 1 + Real.log (1 + 2) + (1 + Real.log (1 + 1))),
        ("ghost", 1 + Real.log (1 + 2)),
        ("tgt", 1 + Real.log (1 + 2) + (1 + Real.log (1 + 1)))],
       [("ghost", ""), ("", "ghost"), ("tgt", "ghost")]) := by
    simp [cexA, cexD, relaxStep, jmGet, jmSet, jsTruthyDist, ltInf, hA]
  rw [hf2]
  show dijkstraLoop cexA cexD "tgt" 5 (1+1)
    [(1 + Real.log (1 + 2) + (1 + Real.log (1 + 1)), ""),
     (1 + Real.log (1 + 2) + (1 + Real.log (1 + 1)), "tgt")]
    [("", 1 + Real.log (1 + 2) + (1 + Real.log (1 + 1))),
     ("ghost", 1 + Real.log (1 + 2)),
     ("tgt", 1 + Real.log (1 + 2) + (1 + Real.log (1 + 1)))]
    [("ghost", ""), ("", "ghost"), ("tgt", "ghost")] = _
  have hs3 : sortPQ
      [(1 + Real.log (1 + 2) + (1 + Real.log (1 + 1)), ""),
       (1 + Real.log (1 + 2) + (1 + Real.log (1 + 1)), "tgt")] =
      (1 + Real.log (1 + 2) + (1 + Real.log (1 + 1)), "") ::
        [(1 + Real.log (1 + 2) + (1 + Real.log (1 + 1)), "tgt")] := by
    simp [sortPQ, pqInsert]
  rw [dijkstraLoop_pop_relax hs3 (by decide) (by simp [jmGet, jsTruthyDist, gtInf, hB])]
  have hf3 : ((jmGet cexA "").getD []).foldl
      (relaxStep cexD (1 + Real.log (1 + 2) + (1 + Real.log (1 + 1))) "")
      ([(1 + Real.log (1 + 2) + (1 + Real.log (1 + 1)), "tgt")],
       [("", 1 + Real.log (1 + 2) + (1 + Real.log (1 + 1))),
        ("ghost", 1 + Real.log (1 + 2)),
        ("tgt", 1 + Real.log (1 + 2) + (1 + Real.log (1 + 1)))],
       [("ghost", ""), ("", "ghost"), ("tgt", "ghost")]) =
      ([(1 + Real.log (1 + 2) + (1 + Real.log (1 + 1)), "tgt")],
       [("", 1 + Real.log (1 + 2) + (1 + Real.log (1 + 1))),
        ("ghost", 1 + Real.log (1 + 2)),
        ("tgt", 1 + Real.log (1 + 2) + (1 + Real.log (1 + 1)))],
       [("ghost", ""), ("", "ghost"), ("tgt", "ghost")]) := by
    have hC : ¬ ((1 + Real.log (1 + 2) + (1 + Real.log (1 + 1)) + (1 + Real.log (1 + 2)) : ℝ) <
        1 + Real.log (1 + 2)) := by intro h; linarith
    simp [cexA, cexD, relaxStep, jmGet, jmSet, jsTruthyDist, ltInf, hA, hC]
  rw [hf3]
  show dijkstraLoop cexA cexD "tgt" 5 (0+1)
    [(1 + Real.log (1 + 2) + (1 + Real.log (1 + 1)), "tgt")]
    [("", 1 + Real.log (1 + 2) + (1 + Real.log (1 + 1))),
     ("ghost", 1 + Real.log (1 + 2)),
     ("tgt", 1 + Real.log (1 + 2) + (1 + Real.log (1 + 1)))]
    [("ghost", ""), ("", "ghost"), ("tgt", "ghost")] = _
  have hs4 : sortPQ [(1 + Real.log (1 + 2) + (1 + Real.log (1 + 1)), "tgt")] =
      (1 + Real.log (1 + 2) + (1 + Real.log (1 + 1)), "tgt") :: [] := by
    simp [sortPQ, pqInsert]
  rw [dijkstraLoop_pop_target hs4]
  simp [reconstruct, jmGet]

theorem cexSteiner : findSteinerTree 4 ["", "tgt"] cexGraph 5 = ["", "tgt", "ghost"] := by
  simp [findSteinerTree, steinerLoop, pairsOf, cexSpathEval, jsAdd]

theorem cexTok : tokenize "alpha beta" = ["alpha", "beta"] := by rfl

theorem cexInv : buildInvertedIndex cexGraph.entities =
    [("alpha", [""]), ("tgt", ["tgt"]), ("beta", ["tgt"])] := by rfl

theorem cexEnt : buildEntityIndex cexGraph.entities =
    [("", ⟨"", "alpha", [], none, none⟩), ("tgt", ⟨"tgt", "beta", [], none, none⟩)] := by rfl

theorem cexRel : cexGraph.relations = [⟨"", "ghost", "r"⟩, ⟨"ghost", "tgt", "r"⟩] := by rfl

theorem cexSearchEval : searchNodes 4 cexGraph "alpha beta" 0 =
    ⟨[⟨"", "alpha", [], none, none⟩, ⟨"tgt", "beta", [], none, none⟩],
     [⟨"", "ghost", "r"⟩, ⟨"ghost", "tgt", "r"⟩]⟩ := by
  unfold searchNodes
  simp only [cexTok, cexInv, cexEnt, cexDeg, cexRel, SEARCH_TOP_PER_TOKEN,
    SEARCH_MIN_RELATIVE_SCORE, SEARCH_MAX_PATH_LENGTH, SEARCH_MAX_TOTAL_NODES]
  simp [tokenCandsFor, scoreEntity, sortScoresDesc, scoreInsert, selectLoop,
    jmGet, jmSet, jsSlice0, cexSteiner, List.reduceOption, SEARCH_TOP_PER_TOKEN,
    SEARCH_MIN_RELATIVE_SCORE, SEARCH_MAX_PATH_LENGTH, SEARCH_MAX_TOTAL_NODES]

/-- C2, counterexample: searching `cexGraph` for `"alpha beta"` returns the
relations through `ghost` — a path node with no entity record — while the
returned entities are only `""` and `tgt`, so a returned relation has an
endpoint outside the returned entity names. -/
theorem c2_resultClosed_cex : ¬ resultClosed (searchNodes 4 cexGraph "alpha beta" 0) := by
  rw [cexSearchEval]
  simp only [resultClosed]
  decide

/-- C6, witness: the concrete pairwise path `["ghost", "tgt"]` respects the
hop cap, a same-endpoint query returns the single-node path, and the node
`ghost` added to the concrete Steiner set lies on a hop-capped path. -/
theorem c6_hopCap_witness :
    (∃ p, findShortestPath 4 "" "tgt" cexGraph 5 = some p ∧ p.length ≤ 5 + 1) ∧
    findShortestPath 7 "a" "a" cexGraph 3 = some ["a"] ∧
    ("ghost" ∈ (["", "tgt"] : List String) ∨
      ∃ a b p, findShortestPath 4 a b cexGraph 5 = some p ∧ "ghost" ∈ p ∧ p.length ≤ 5 + 1) :=
  ⟨⟨["ghost", "tgt"], cexSpathEval,
      c6_hopCap.1 4 "" "tgt" cexGraph 5 ["ghost", "tgt"] cexSpathEval⟩,
   c6_hopCap.2.1 7 "a" cexGraph 3,
   c6_hopCap.2.2 4 ["", "tgt"] cexGraph 5 "ghost" (by rw [cexSteiner]; decide)⟩

/-! ### C2: closure of the search result -/

theorem jmGet_mem {α : Type} {m : List (String × α)} {k : String} {v : α}
    (h : jmGet m k = some v) : (k, v) ∈ m := by
  induction m with
  | nil => cases h
  | cons kv rest ih =>
    obtain ⟨k2, v2⟩ := kv
    simp only [jmGet] at h
    split_ifs at h with hk
    · cases h
      subst hk
      exact List.mem_cons_self _ _
    · exact List.mem_cons_of_mem _ (ih h)

theorem jmSet_mem {α : Type} {m : List (String × α)} {k : String} {v : α} {kv : String × α}
    (h : kv ∈ jmSet m k v) : kv ∈ m ∨ kv = (k, v) := by
  induction m with
  | nil =>
    simp only [jmSet, List.mem_singleton] at h
    exact Or.inr h
  | cons kv2 rest ih =>
    obtain ⟨k2, v2⟩ := kv2
    simp only [jmSet] at h
    split_ifs at h with hk
    · rcases List.mem_cons.mp h with h1 | h1
      · subst hk
        rcases h1 with rfl
        exact Or.inr rfl
      · exact Or.inl (List.mem_cons_of_mem _ h1)
    · rcases List.mem_cons.mp h with h1 | h1
      · exact Or.inl (h1 ▸ List.mem_cons_self _ _)
      · rcases ih h1 with h2 | h2
        · exact Or.inl (List.mem_cons_of_mem _ h2)
        · exact Or.inr h2

theorem jmGet_jmSet {α : Type} (m : List (String × α)) (k : String) (v : α) (n : String) :
    jmGet (jmSet m k v) n = if k = n then some v else jmGet m n := by
  induction m with
  | nil => simp [jmSet, jmGet]
  | cons kv rest ih =>
    obtain ⟨k2, v2⟩ := kv
    by_cases h1 : k2 = k
    · subst h1
      have hset : jmSet ((k2, v2) :: rest) k2 v = (k2, v) :: rest := by simp [jmSet]
      rw [hset]
      by_cases h2 : k2 = n
      · subst h2
        simp [jmGet]
      · simp [jmGet, h2]
    · have hset : jmSet ((k2, v2) :: rest) k v = (k2, v2) :: jmSet rest k v := by
        simp [jmSet, h1]
      rw [hset]
      by_cases h2 : k2 = n
      · subst h2
        have h3 : ¬ k = k2 := fun hc => h1 hc.symm
        simp [jmGet, h3]
      · simp [jmGet, h2, ih]

theorem pqInsert_mem {x y : ℝ × String} {l : List (ℝ × String)} (h : y ∈ pqInsert x l) :
    y = x ∨ y ∈ l := by
  induction l with
  | nil =>
    simp only [pqInsert, List.mem_singleton] at h
    exact Or.inl h
  | cons z zs ih =>
    simp only [pqInsert] at h
    split_ifs at h with hc
    · rcases List.mem_cons.mp h with h1 | h1
      · exact Or.inr (h1 ▸ List.mem_cons_self _ _)
      · rcases ih h1 with h2 | h2
        · exact Or.inl h2
        · exact Or.inr (List.mem_cons_of_mem _ h2)
    · rcases List.mem_cons.mp h with h1 | h1
      · exact Or.inl h1
      · exact Or.inr h1

theorem sortPQ_mem {y : ℝ × String} {l : List (ℝ × String)} (h : y ∈ sortPQ l) : y ∈ l := by
  induction l with
  | nil => cases h
  | cons x xs ih =>
    simp only [sortPQ] at h
    rcases pqInsert_mem h with h1 | h1
    · exact h1 ▸ List.mem_cons_self _ _
    · exact List.mem_cons_of_mem _ (ih h1)

theorem reconstruct_subset {parent : List (String × String)} {S : List String}
    (hp : ∀ kv ∈ parent, kv.2 ∈ S) :
    ∀ (fuel : Nat) (n : String) (p : List String), n ∈ S →
    reconstruct parent fuel n = some p → ∀ x ∈ p, x ∈ S := by
  intro fuel
  induction fuel with
  | zero => intro n p _ h; cases h
  | succ fuel ih =>
    intro n p hn h
    simp only [reconstruct] at h
    split_ifs at h with h0
    · cases h
      intro x hx
      cases hx
    · cases hq : jmGet parent n with
      | none =>
        rw [hq] at h
        cases h
        intro x hx
        rw [List.mem_singleton.mp hx]
        exact hn
      | some q =>
        rw [hq] at h
        dsimp only at h
        cases hr : reconstruct parent fuel q with
        | none => rw [hr] at h; cases h
        | some rest =>
          rw [hr] at h
          simp only [Option.map_some'] at h
          cases h
          intro x hx
          rcases List.mem_append.mp hx with hx1 | hx2
          · exact ih q rest (hp _ (jmGet_mem hq)) hr x hx1
          · rw [List.mem_singleton.mp hx2]
            exact hn

theorem relaxFold_inv {degree : List (String × Nat)} {currDist : ℝ} {curr : String}
    {S : List String} (hcurr : curr ∈ S) :
    ∀ (nbs : List String)
      (st : List (ℝ × String) × List (String × ℝ) × List (String × String)),
    (∀ nb ∈ nbs, nb ∈ S) →
    (∀ x ∈ st.1, x.2 ∈ S) → (∀ kv ∈ st.2.2, kv.1 ∈ S ∧ kv.2 ∈ S) →
    (∀ x ∈ (nbs.foldl (relaxStep degree currDist curr) st).1, x.2 ∈ S) ∧
    (∀ kv ∈ (nbs.foldl (relaxStep degree currDist curr) st).2.2, kv.1 ∈ S ∧ kv.2 ∈ S) := by
  intro nbs
  induction nbs with
  | nil => intro st _ h1 h2; exact ⟨h1, h2⟩
  | cons nb nbs ih =>
    intro st hnb h1 h2
    refine ih (relaxStep degree currDist curr st nb)
      (fun x hx => hnb x (List.mem_cons_of_mem nb hx)) ?_ ?_
    · intro x hx
      simp only [relaxStep] at hx
      split_ifs at hx with hc
      · rcases List.mem_append.mp hx with hx1 | hx2
        · exact h1 x hx1
        · rw [List.mem_singleton.mp hx2]
          exact hnb nb (List.mem_cons_self nb nbs)
      · exact h1 x hx
    · intro kv hkv
      simp only [relaxStep] at hkv
      split_ifs at hkv with hc
      · rcases jmSet_mem hkv with h3 | h3
        · exact h2 kv h3
        · rw [h3]
          exact ⟨hnb nb (List.mem_cons_self nb nbs), hcurr⟩
      · exact h2 kv hkv

theorem dijkstraLoop_subset {adj : List (String × List String)} {degree : List (String × Nat)}
    {«to» : String} {maxLen : Nat} {S : List String}
    (hadj : ∀ kv ∈ adj, ∀ v ∈ kv.2, v ∈ S) (hto : «to» ∈ S) :
    ∀ (fuel : Nat) (pq : List (ℝ × String)) (dist : List (String × ℝ))
      (parent : List (String × String)) (p : List String),
    (∀ x ∈ pq, x.2 ∈ S) → (∀ kv ∈ parent, kv.1 ∈ S ∧ kv.2 ∈ S) →
    dijkstraLoop adj degree «to» maxLen fuel pq dist parent = some p →
    ∀ x ∈ p, x ∈ S := by
  intro fuel
  induction fuel with
  | zero => intro pq dist parent p _ _ h; cases h
  | succ fuel ih =>
    intro pq dist parent p hpq hpar h
    rw [dijkstraLoop_succ] at h
    cases hs : sortPQ pq with
    | nil => rw [hs] at h; cases h
    | cons top rest =>
      rw [hs] at h
      obtain ⟨currDist, curr⟩ := top
      have hrest : ∀ x ∈ rest, x.2 ∈ S := fun x hx =>
        hpq x (sortPQ_mem (by rw [hs]; exact List.mem_cons_of_mem _ hx))
      have hcurr : curr ∈ S :=
        hpq (currDist, curr) (sortPQ_mem (by rw [hs]; exact List.mem_cons_self _ _))
      dsimp only at h
      split_ifs at h with h1 h2
      · cases hr : reconstruct parent (parent.length + 2) «to» with
        | none => rw [hr] at h; cases h
        | some path =>
          rw [hr] at h
          dsimp only at h
          split_ifs at h with h3
          cases h
          exact reconstruct_subset (fun kv hkv => (hpar kv hkv).2) _ _ _ hto hr
      · exact ih rest dist parent p hrest hpar h
      · have hnbs : ∀ nb ∈ (jmGet adj curr).getD [], nb ∈ S := by
          cases hja : jmGet adj curr with
          | none => intro nb hnb; cases hnb
          | some vs =>
            intro nb hnb
            exact hadj _ (jmGet_mem hja) nb (by simpa using hnb)
        obtain ⟨hp1, hp2⟩ := relaxFold_inv hcurr _ (rest, dist, parent) hnbs hrest hpar
        exact ih _ _ _ p hp1 hp2 h

theorem buildAdj_values (S : List String) :
    ∀ (rels : List Relation) (m : List (String × List String)),
    (∀ kv ∈ m, ∀ v ∈ kv.2, v ∈ S) →
    (∀ r ∈ rels, r.«from» ∈ S ∧ r.«to» ∈ S) →
    ∀ kv ∈ rels.foldl (fun m r =>
        let m1 := jmSet m r.«from» (jsAdd ((jmGet m r.«from»).getD []) r.«to»)
        jmSet m1 r.«to» (jsAdd ((jmGet m1 r.«to»).getD []) r.«from»)) m,
      ∀ v ∈ kv.2, v ∈ S := by
  intro rels
  induction rels with
  | nil => intro m hm _ kv hkv; exact hm kv hkv
  | cons r rels ih =>
    intro m hm hr
    have hrS := hr r (List.mem_cons_self r rels)
    have hold0 : ∀ v ∈ (jmGet m r.«from»).getD [], v ∈ S := by
      cases hj : jmGet m r.«from» with
      | none => intro v hv; cases hv
      | some vs => intro v hv; exact hm _ (jmGet_mem hj) v (by simpa using hv)
    have hm1 : ∀ kv ∈ jmSet m r.«from» (jsAdd ((jmGet m r.«from»).getD []) r.«to»),
        ∀ v ∈ kv.2, v ∈ S := by
      intro kv hkv v hv
      rcases jmSet_mem hkv with h1 | h1
      · exact hm kv h1 v hv
      · rw [h1] at hv
        rcases jsAdd_mem hv with h2 | h2
        · exact hold0 v h2
        · exact h2 ▸ hrS.2
    have hold1 : ∀ v ∈ (jmGet (jmSet m r.«from» (jsAdd ((jmGet m r.«from»).getD []) r.«to»))
        r.«to»).getD [], v ∈ S := by
      cases hj : jmGet (jmSet m r.«from» (jsAdd ((jmGet m r.«from»).getD []) r.«to»)) r.«to» with
      | none => intro v hv; cases hv
      | some vs => intro v hv; exact hm1 _ (jmGet_mem hj) v (by simpa using hv)
    refine ih _ ?_ (fun r2 hr2 => hr r2 (List.mem_cons_of_mem r hr2))
    intro kv hkv v hv
    rcases jmSet_mem hkv with h1 | h1
    · exact hm1 kv h1 v hv
    · rw [h1] at hv
      rcases jsAdd_mem hv with h2 | h2
      · exact hold1 v h2
      · exact h2 ▸ hrS.1

theorem findShortestPath_subset {fuel : Nat} {s t : String} {g : KnowledgeGraph}
    {maxLen : Nat} {p : List String}
    (h : findShortestPath fuel s t g maxLen = some p) :
    ∀ x ∈ p, x = s ∨ x = t ∨ x ∈ relNames g := by
  have hS : ∀ x, x ∈ (s :: t :: relNames g) → x = s ∨ x = t ∨ x ∈ relNames g := by
    intro x hx
    rcases List.mem_cons.mp hx with h1 | h1
    · exact Or.inl h1
    · rcases List.mem_cons.mp h1 with h2 | h2
      · exact Or.inr (Or.inl h2)
      · exact Or.inr (Or.inr h2)
  unfold findShortestPath at h
  split_ifs at h with hst
  · cases h
    intro x hx
    rw [List.mem_singleton.mp hx]
    exact Or.inl rfl
  · have hadj : ∀ kv ∈ buildAdj g.relations, ∀ v ∈ kv.2, v ∈ (s :: t :: relNames g) := by
      intro kv hkv v hv
      refine buildAdj_values (s :: t :: relNames g) g.relations []
        (fun kv2 hkv2 => by cases hkv2) ?_ kv hkv v hv
      intro r hr
      constructor
      · exact List.mem_cons_of_mem s (List.mem_cons_of_mem t
          (List.mem_append_left _ (List.mem_map_of_mem Relation.«from» hr)))
      · exact List.mem_cons_of_mem s (List.mem_cons_of_mem t
          (List.mem_append_right _ (List.mem_map_of_mem Relation.«to» hr)))
    have hrun := dijkstraLoop_subset hadj
      (List.mem_cons_of_mem s (List.mem_cons_self t (relNames g))) fuel
      [(0, s)] [(s, 0)] [] p ?_ (fun kv hkv => by cases hkv) h
    · intro x hx
      exact hS x (hrun x hx)
    · intro x hx
      rw [List.mem_singleton.mp hx]
      exact List.mem_cons_self s _

theorem pairsOf_mem {ab : String × String} : ∀ {l : List String}, ab ∈ pairsOf l →
    ab.1 ∈ l ∧ ab.2 ∈ l := by
  intro l
  induction l with
  | nil => intro h; cases h
  | cons x xs ih =>
    intro h
    simp only [pairsOf] at h
    rcases List.mem_append.mp h with h1 | h1
    · obtain ⟨y, hy, hEq⟩ := List.mem_map.mp h1
      rw [← hEq]
      exact ⟨List.mem_cons_self x xs, List.mem_cons_of_mem x hy⟩
    · obtain ⟨h2, h3⟩ := ih h1
      exact ⟨List.mem_cons_of_mem x h2, List.mem_cons_of_mem x h3⟩

theorem steinerLoop_mem_pairs (fuel : Nat) (g : KnowledgeGraph) (maxLen : Nat) :
    ∀ (pairs : List (String × String)) (conn : List String) (n : String),
    n ∈ steinerLoop fuel g maxLen pairs conn →
      n ∈ conn ∨ ∃ ab ∈ pairs, ∃ p, findShortestPath fuel ab.1 ab.2 g maxLen = some p ∧
        n ∈ p := by
  intro pairs
  induction pairs with
  | nil => intro conn n h; exact Or.inl h
  | cons ab ps ih =>
    intro conn n h
    obtain ⟨a, b⟩ := ab
    simp only [steinerLoop] at h
    cases hsp : findShortestPath fuel a b g maxLen with
    | none =>
      rw [hsp] at h
      rcases ih conn n h with h1 | ⟨ab2, hab2, hp⟩
      · exact Or.inl h1
      · exact Or.inr ⟨ab2, List.mem_cons_of_mem _ hab2, hp⟩
    | some path =>
      rw [hsp] at h
      rcases ih _ n h with h1 | ⟨ab2, hab2, hp⟩
      · rcases foldl_jsAdd_mem path conn n h1 with h2 | h2
        · exact Or.inl h2
        · exact Or.inr ⟨(a, b), List.mem_cons_self _ _, path, hsp, h2⟩
      · exact Or.inr ⟨ab2, List.mem_cons_of_mem _ hab2, hp⟩

theorem findSteinerTree_mem_pairs {fuel : Nat} {entries : List String} {g : KnowledgeGraph}
    {maxLen : Nat} {n : String} (h : n ∈ findSteinerTree fuel entries g maxLen) :
    n ∈ entries ∨ ∃ a b p, a ∈ entries ∧ b ∈ entries ∧
      findShortestPath fuel a b g maxLen = some p ∧ n ∈ p := by
  unfold findSteinerTree at h
  split_ifs at h
  · exact Or.inl h
  · rcases steinerLoop_mem_pairs fuel g maxLen _ _ _ h with h1 | ⟨ab, hab, p, hp, hn⟩
    · exact Or.inl h1
    · obtain ⟨ha, hb⟩ := pairsOf_mem hab
      exact Or.inr ⟨ab.1, ab.2, p, ha, hb, hp, hn⟩

theorem scoreInsert_mem {x y : String × ℝ} {l : List (String × ℝ)} (h : y ∈ scoreInsert x l) :
    y = x ∨ y ∈ l := by
  induction l with
  | nil =>
    simp only [scoreInsert, List.mem_singleton] at h
    exact Or.inl h
  | cons z zs ih =>
    simp only [scoreInsert] at h
    split_ifs at h with hc
    · rcases List.mem_cons.mp h with h1 | h1
      · exact Or.inr (h1 ▸ List.mem_cons_self _ _)
      · rcases ih h1 with h2 | h2
        · exact Or.inl h2
        · exact Or.inr (List.mem_cons_of_mem _ h2)
    · rcases List.mem_cons.mp h with h1 | h1
      · exact Or.inl h1
      · exact Or.inr h1

theorem sortScoresDesc_mem {y : String × ℝ} {l : List (String × ℝ)}
    (h : y ∈ sortScoresDesc l) : y ∈ l := by
  induction l with
  | nil => cases h
  | cons x xs ih =>
    simp only [sortScoresDesc] at h
    rcases scoreInsert_mem h with h1 | h1
    · exact h1 ▸ List.mem_cons_self _ _
    · exact List.mem_cons_of_mem _ (ih h1)

theorem tokenCandsFor_names {inv : List (String × List String)}
    {entIdx : List (String × Entity)} {degree : List (String × Nat)} {now : Nat}
    {tok : String} {l : List (String × ℝ)}
    (h : tokenCandsFor inv entIdx degree now tok = some l) :
    ∀ p ∈ l, ∃ e, jmGet entIdx p.1 = some e := by
  unfold tokenCandsFor at h
  cases hj : jmGet inv tok with
  | none => rw [hj] at h; cases h
  | some names =>
    rw [hj] at h
    dsimp only at h
    have hsc : ∀ (ns : List String) (acc : List (String × ℝ)),
        (∀ p ∈ acc, ∃ e, jmGet entIdx p.1 = some e) →
        ∀ p ∈ ns.foldl (fun acc nm =>
          match jmGet entIdx nm with
          | none => acc
          | some e => acc ++ [(nm, scoreEntity degree now tok e)]) acc,
        ∃ e, jmGet entIdx p.1 = some e := by
      intro ns
      induction ns with
      | nil => intro acc hacc p hp; exact hacc p hp
      | cons nm ns ih =>
        intro acc hacc
        cases hm : jmGet entIdx nm with
        | none =>
          simp only [List.foldl_cons, hm]
          exact ih acc hacc
        | some e =>
          simp only [List.foldl_cons, hm]
          refine ih _ ?_
          intro p hp
          rcases List.mem_append.mp hp with h1 | h1
          · exact hacc p h1
          · rw [List.mem_singleton.mp h1]
            exact ⟨e, hm⟩
    cases hsort : sortScoresDesc (names.foldl (fun acc nm =>
        match jmGet entIdx nm with
        | none => acc
        | some e => acc ++ [(nm, scoreEntity degree now tok e)]) []) with
    | nil => rw [hsort] at h; cases h
    | cons top restS =>
      rw [hsort] at h
      cases h
      intro p hp
      have hp2 : p ∈ top :: restS := List.mem_of_mem_filter hp
      have hp3 : p ∈ sortScoresDesc _ := hsort ▸ hp2
      exact hsc names [] (fun p hp => by cases hp) p (sortScoresDesc_mem hp3)

theorem selectLoop_mem :
    ∀ (cands : List (String × ℝ)) (entries : List String) (count : Nat) {x : String},
    x ∈ selectLoop cands entries count → x ∈ entries ∨ ∃ s, (x, s) ∈ cands := by
  intro cands
  induction cands with
  | nil => intro entries count x h; exact Or.inl h
  | cons c cs ih =>
    intro entries count x h
    obtain ⟨nm, sc⟩ := c
    simp only [selectLoop] at h
    split_ifs at h with h1 h2
    · exact Or.inl h
    · rcases ih entries count h with h3 | ⟨s, h3⟩
      · exact Or.inl h3
      · exact Or.inr ⟨s, List.mem_cons_of_mem _ h3⟩
    · rcases ih (entries ++ [nm]) (count + 1) h with h3 | ⟨s, h3⟩
      · rcases List.mem_append.mp h3 with h4 | h4
        · exact Or.inl h4
        · exact Or.inr ⟨sc, (List.mem_singleton.mp h4) ▸ List.mem_cons_self _ _⟩
      · exact Or.inr ⟨s, List.mem_cons_of_mem _ h3⟩

theorem tokenCandsFold_values {inv : List (String × List String)}
    {entIdx : List (String × Entity)} {degree : List (String × Nat)} {now : Nat} :
    ∀ (toks : List String) (tc0 : List (String × List (String × ℝ))),
    (∀ kv ∈ tc0, ∀ p ∈ kv.2, ∃ e, jmGet entIdx p.1 = some e) →
    ∀ kv ∈ toks.foldl (fun tc tok =>
        match tokenCandsFor inv entIdx degree now tok with
        | none => tc
        | some cands => jmSet tc tok cands) tc0,
    ∀ p ∈ kv.2, ∃ e, jmGet entIdx p.1 = some e := by
  intro toks
  induction toks with
  | nil => intro tc0 h kv hkv; exact h kv hkv
  | cons tok toks ih =>
    intro tc0 h
    cases hc : tokenCandsFor inv entIdx degree now tok with
    | none =>
      simp only [List.foldl_cons, hc]
      exact ih tc0 h
    | some cands =>
      simp only [List.foldl_cons, hc]
      refine ih _ ?_
      intro kv hkv
      rcases jmSet_mem hkv with h1 | h1
      · exact h kv h1
      · rw [h1]
        exact tokenCandsFor_names hc

theorem entriesFold_prop {entIdx : List (String × Entity)}
    {tc : List (String × List (String × ℝ))}
    (htc : ∀ kv ∈ tc, ∀ p ∈ kv.2, ∃ e, jmGet entIdx p.1 = some e) :
    ∀ (toks : List String) (acc : List String),
    (∀ x ∈ acc, ∃ e, jmGet entIdx x = some e) →
    ∀ x ∈ toks.foldl (fun entries tok =>
        match jmGet tc tok with
        | none => entries
        | some cands => selectLoop cands entries 0) acc,
    ∃ e, jmGet entIdx x = some e := by
  intro toks
  induction toks with
  | nil => intro acc h x hx; exact h x hx
  | cons tok toks ih =>
    intro acc h
    cases hj : jmGet tc tok with
    | none =>
      simp only [List.foldl_cons, hj]
      exact ih acc h
    | some cands =>
      simp only [List.foldl_cons, hj]
      refine ih _ ?_
      intro x hx
      rcases selectLoop_mem cands acc 0 hx with h1 | ⟨s, h1⟩
      · exact h x h1
      · exact htc _ (jmGet_mem hj) (x, s) h1

theorem buildEntityIndex_spec :
    ∀ (ents : List Entity) (m : List (String × Entity)),
    (∀ kv ∈ m, kv.2.name = kv.1) →
    ∀ kv ∈ ents.foldl (fun m e => jmSet m e.name e) m, kv.2.name = kv.1 := by
  intro ents
  induction ents with
  | nil => intro m h kv hkv; exact h kv hkv
  | cons e es ih =>
    intro m h
    simp only [List.foldl_cons]
    refine ih _ ?_
    intro kv hkv
    rcases jmSet_mem hkv with h1 | h1
    · exact h kv h1
    · rw [h1]

theorem buildEntityIndex_exists :
    ∀ (ents : List Entity) (m : List (String × Entity)) (n : String),
    ((∃ v, jmGet m n = some v) ∨ n ∈ ents.map Entity.name) →
    ∃ e, jmGet (ents.foldl (fun m e => jmSet m e.name e) m) n = some e := by
  intro ents
  induction ents with
  | nil =>
    intro m n h
    rcases h with ⟨v, hv⟩ | h2
    · exact ⟨v, hv⟩
    · cases h2
  | cons e es ih =>
    intro m n h
    simp only [List.foldl_cons]
    refine ih (jmSet m e.name e) n ?_
    rcases h with ⟨v, hv⟩ | h2
    · left
      rw [jmGet_jmSet]
      split_ifs with hc
      · exact ⟨e, rfl⟩
      · exact ⟨v, hv⟩
    · rw [List.map_cons] at h2
      rcases List.mem_cons.mp h2 with h3 | h3
      · left
        rw [jmGet_jmSet, if_pos h3.symm]
        exact ⟨e, rfl⟩
      · right
        exact h3

theorem reduceOption_names {idx : List (String × Entity)}
    (hspec : ∀ kv ∈ idx, kv.2.name = kv.1) :
    ∀ (names : List String), (∀ n ∈ names, ∃ e, jmGet idx n = some e) →
    ((names.map (fun n => jmGet idx n)).reduceOption).map Entity.name = names := by
  intro names
  induction names with
  | nil => intro _; rfl
  | cons n ns ih =>
    intro h
    obtain ⟨e, he⟩ := h n (List.mem_cons_self n ns)
    rw [List.map_cons, he, List.reduceOption_cons_of_some, List.map_cons,
      ih (fun x hx => h x (List.mem_cons_of_mem n hx))]
    have : e.name = n := hspec (n, e) (jmGet_mem he)
    rw [this]

theorem jsSlice0_sub {α : Type} {x : α} {l : List α} {k : Int} (h : x ∈ jsSlice0 l k) :
    x ∈ l := by
  unfold jsSlice0 at h
  split_ifs at h <;> exact List.mem_of_mem_take h

theorem closure_assembly {entityIndex : List (String × Entity)} {rels : List Relation}
    {finalNames : List String}
    (hspec : ∀ kv ∈ entityIndex, kv.2.name = kv.1)
    (hok : ∀ n ∈ finalNames, ∃ e, jmGet entityIndex n = some e) :
    resultClosed ⟨(finalNames.map (fun n => jmGet entityIndex n)).reduceOption,
      rels.filter (fun r => finalNames.contains r.«from» ∧ finalNames.contains r.«to»)⟩ := by
  intro r hr
  have hcond := List.of_mem_filter hr
  simp only [Bool.decide_and, Bool.and_eq_true, decide_eq_true_eq] at hcond
  have hnames : ((finalNames.map (fun n => jmGet entityIndex n)).reduceOption).map
      Entity.name = finalNames := reduceOption_names hspec finalNames hok
  constructor
  · show r.«from» ∈ _
    rw [hnames]
    exact contains_iff.mp hcond.1
  · show r.«to» ∈ _
    rw [hnames]
    exact contains_iff.mp hcond.2

theorem entIdx_rel_ok (g : KnowledgeGraph)
    (h : ∀ r ∈ g.relations, r.«from» ∈ g.entities.map Entity.name ∧
      r.«to» ∈ g.entities.map Entity.name) :
    ∀ n ∈ relNames g, ∃ e, jmGet (buildEntityIndex g.entities) n = some e := by
  intro n hn
  rcases List.mem_append.mp hn with hn1 | hn1
  · obtain ⟨r, hr, hEq⟩ := List.mem_map.mp hn1
    exact buildEntityIndex_exists g.entities [] n (Or.inr (hEq ▸ (h r hr).1))
  · obtain ⟨r, hr, hEq⟩ := List.mem_map.mp hn1
    exact buildEntityIndex_exists g.entities [] n (Or.inr (hEq ▸ (h r hr).2))

theorem searchNodes_entries_ok (g : KnowledgeGraph) (query : String) (now : Nat) :
    ∀ x ∈ (tokenize query).foldl (fun entries tok =>
        match jmGet ((tokenize query).foldl (fun tc tok =>
          match tokenCandsFor (buildInvertedIndex g.entities) (buildEntityIndex g.entities)
            (buildDegree g.relations) now tok with
          | none => tc
          | some cands => jmSet tc tok cands) []) tok with
        | none => entries
        | some cands => selectLoop cands entries 0) [],
      ∃ e, jmGet (buildEntityIndex g.entities) x = some e := by
  refine entriesFold_prop ?_ (tokenize query) [] (fun x hx => by cases hx)
  exact tokenCandsFold_values (tokenize query) [] (fun kv hkv => by cases hkv)

theorem steiner_node_ok (fuel : Nat) (g : KnowledgeGraph) (E : List String)
    (hE : ∀ x ∈ E, ∃ e, jmGet (buildEntityIndex g.entities) x = some e)
    (hrel : ∀ n ∈ relNames g, ∃ e, jmGet (buildEntityIndex g.entities) n = some e) :
    ∀ n ∈ findSteinerTree fuel E g SEARCH_MAX_PATH_LENGTH,
      ∃ e, jmGet (buildEntityIndex g.entities) n = some e := by
  intro n hm
  rcases findSteinerTree_mem_pairs hm with hm1 | ⟨a, b, p, ha, hb, hp, hnp⟩
  · exact hE n hm1
  · rcases findShortestPath_subset hp n hnp with h3 | h3 | h3
    · exact h3 ▸ hE a ha
    · exact h3 ▸ hE b hb
    · exact hrel n h3

/-- C2 (amended): every relation returned by `search_nodes` has both
endpoints among the returned entity names, provided every relation endpoint
in the stored graph names an existing entity (no dangling endpoints). -/
theorem c2_resultClosed (fuel : Nat) (g : KnowledgeGraph) (query : String) (now : Nat)
    (h : ∀ r ∈ g.relations, r.«from» ∈ g.entities.map Entity.name ∧
      r.«to» ∈ g.entities.map Entity.name) :
    resultClosed (searchNodes fuel g query now) := by
  unfold searchNodes
  dsimp only
  split_ifs with h1 h2 hc
  · intro r hr; cases hr
  · intro r hr; cases hr
  · refine closure_assembly
      (buildEntityIndex_spec g.entities [] (fun kv hkv => by cases hkv)) ?_
    exact steiner_node_ok fuel g _ (searchNodes_entries_ok g query now) (entIdx_rel_ok g h)
  · refine closure_assembly
      (buildEntityIndex_spec g.entities [] (fun kv hkv => by cases hkv)) ?_
    intro n hn
    rcases List.mem_append.mp hn with hn1 | hn1
    · exact searchNodes_entries_ok g query now n hn1
    · exact steiner_node_ok fuel g _ (searchNodes_entries_ok g query now) (entIdx_rel_ok g h)
        n (List.mem_of_mem_filter (jsSlice0_sub hn1))

/-- C2, witness: the closure at a concrete dangling-free store (the empty
graph) and a concrete query. -/
theorem c2_resultClosed_witness : resultClosed (searchNodes 1 ⟨[], []⟩ "anything" 0) :=
  c2_resultClosed 1 ⟨[], []⟩ "anything" 0 (fun r hr => by cases hr)

end MemServer
